import Mathlib

/-!
Verification development for the sisl BTD (block-tri-diagonal) Green-function
engine (`src/toolbox/btd/_btd.py`).

Modelling conventions (shallow embedding):

* Dense complex tiles (numpy arrays) are modelled as square matrices
  `Matrix (Fin m) (Fin m) K` over an abstract field `K` with a star operation
  (`ℂ` in the program; witnesses instantiate `K := ℚ`, `m := 1`).  The BTD
  algorithms are size-generic, so all blocks are modelled with a common
  block size `m`.
* `scipy.linalg.solve(A, B)` returns the exact solution `A⁻¹ ⬝ B` for
  nonsingular `A`; it is modelled as `minv A * B` where `minv` is a
  computable general inverse that agrees with `Matrix.inv` (and hence is the
  true inverse exactly when the matrix is nonsingular).
* `BlockMatrix` stores tiles in a dictionary keyed by block pairs `(i, j)`;
  it is modelled as `ℕ → ℕ → Option tile` (`none` = absent key).
* Stateful code (`DeviceGreen._data` caching) is modelled by explicit state
  passing over a record of optional fields (a `PropertyDict` attribute that
  has not been assigned is `none`).
* Python exceptions are modelled by `Except` with an error-kind inductive.
-/

set_option maxHeartbeats 1000000
set_option linter.unusedSectionVars false

namespace SislBTD

open Matrix

variable {K : Type} [Field K] [StarRing K] [DecidableEq K]
variable {m : ℕ}
variable {α : Type}

/-- Square dense tile of block size `m` over the scalar field `K`. -/
abbrev Tile (K : Type) (m : ℕ) : Type := Matrix (Fin m) (Fin m) K

/-- Source `dagger(M) = conj(M.T)`: the conjugate transpose. -/
def dagger (M : Tile K m) : Tile K m := M.conjTranspose

/-- Computable general inverse over a field: `det⁻¹ • adjugate` when the
determinant is nonzero, `0` otherwise.  This coincides with Mathlib's
`Matrix.inv` in all cases (see `minv_eq_inv`), and with the true inverse
exactly on nonsingular matrices; it models LAPACK `inv`/`solve`, which fail
on singular input (claims about them carry nonsingularity hypotheses). -/
def minv {n : Type} [Fintype n] [DecidableEq n] (A : Matrix n n K) : Matrix n n K :=
  if A.det = 0 then 0 else A.det⁻¹ • A.adjugate

/-- Source `solve(a, b)`: the exact solution `X` of `a @ X = b`. -/
def solve (a b : Tile K m) : Tile K m := minv a * b

/-! ### BlockMatrix (`class BlockMatrix`) -/

/-- A `BlockMatrix` with `nb` blocks: the tile dictionary `self._M`, keyed by
block pair; `none` models an absent key. -/
def BlockMatrixMap (α : Type) : Type := ℕ → ℕ → Option α

/-- `BlockMatrix.tobtd`: the double loop
`for j in range(nb): for i in range(max(0, j-1), min(j+1, nb-1)): ret[i,j] = M[i,j]`.
A key `(i, j)` is present in the result exactly when the inner `range`
produces `i` for column `j` (note the exclusive upper bound
`min(j+1, nb-1)`); all other keys are absent. -/
def tobtd (nb : ℕ) (M : BlockMatrixMap α) : BlockMatrixMap α :=
  fun i j => if j < nb ∧ j - 1 ≤ i ∧ i < min (j + 1) (nb - 1) then M i j else none

/-- `BlockMatrix.toarray` at block resolution: block `(i, j)` of the dense
materialization is the stored tile, or a zero tile for an absent key
(`BlockMatrixIndexer.__getitem__` returns `np.zeros` for a missing key). -/
def toarrayBlk [Zero α] (M : BlockMatrixMap α) : ℕ → ℕ → α :=
  fun i j => (M i j).getD 0

/-! ### Error semantics (`_elec`, `spectral`, `scattering_state` dispatch) -/

/-- Kinds of Python exceptions raised (or propagated) by the dispatch code. -/
inductive PyErr : Type where
  | valueError (msg : String)
  | typeError (msg : String)
  | notImplementedError
deriving DecidableEq

/-- The `elec` argument of the public methods: a `str` name or an `int` index
(the `PivotSelfEnergy` case immediately reduces to the `str` case). -/
inductive ElecArg : Type where
  | name (s : String)
  | idx (n : ℕ)
deriving DecidableEq

/-- `DeviceGreen._elec`: scan `self.elecs` for a matching name and return its
linear index; any other input (including an unknown name) falls through to
`return elec` unchanged. -/
def DeviceGreen_elec (elecs : List String) : ElecArg → ElecArg
  | .name s =>
    match elecs.findIdx? (fun el => el = s) with
    | some i => .idx i
    | none => .name s
  | .idx n => .idx n

/-- Python list indexing `l[e]` as used for `self.elecs_pvt_dev[elec]`: an
integer index returns the element, a `str` index raises `TypeError`. -/
def pyListIndex (l : List α) : ElecArg → Except PyErr α
  | .name _ => .error (.typeError "list indices must be integers or slices, not str")
  | .idx n =>
    if h : n < l.length then .ok (l.get ⟨n, h⟩)
    else .error (.typeError "list index out of range")

/-- The message of the `ValueError` raised by `DeviceGreen.spectral` when the
format+method combination is not dispatched. -/
def spectralComboMsg (format method : String) : String :=
  "DeviceGreen.spectral combination of format+method not recognized " ++ format ++ "+" ++ method ++ "."

/-- `DeviceGreen.spectral` error flow: `elec = self._elec(elec)`, then
dispatch on `format`/`method`; every dispatched branch first touches
`self.elecs_pvt_dev[elec]` (inside `_green_column` / `_green_diag_block`),
and any combination that is not dispatched falls through to the single
`raise ValueError` at the end.  The payload `α` stands for the electrode
pivot array retrieved by the first touch; the numerical work that follows is
not part of the error flow. -/
def DeviceGreen_spectral (elecs : List String) (pvt_dev : List α)
    (format method : String) (elec : ElecArg) : Except PyErr α :=
  let e := DeviceGreen_elec elecs elec
  if format = "array" ∨ format = "dense" then
    if method = "column" then pyListIndex pvt_dev e
    else if method = "propagate" then pyListIndex pvt_dev e
    else .error (.valueError (spectralComboMsg format method))
  else if format = "btd" then
    if method = "column" then pyListIndex pvt_dev e
    else .error (.valueError (spectralComboMsg format method))
  else if format = "bm" then
    if method = "column" then pyListIndex pvt_dev e
    else .error (.valueError (spectralComboMsg format method))
  else .error (.valueError (spectralComboMsg format method))

/-- `DeviceGreen.scattering_state` error flow: `elec = self._elec(elec)`,
then `getattr(self, f"_scattering_state_{method}")` dispatch (a missing
method raises `ValueError`); each of the three methods first touches
`self.elecs_pvt_dev[elec]`. -/
def DeviceGreen_scattering_state (elecs : List String) (pvt_dev : List α)
    (method : String) (elec : ElecArg) : Except PyErr α :=
    let e := DeviceGreen_elec elecs elec
    if method = "full" ∨ method = "svd" ∨ method = "propagate" then pyListIndex pvt_dev e
    else .error (.valueError "DeviceGreen.scattering_state method is not [full,svd,propagate]")

/-- Predicate: the result is an invalid-argument failure (the spec's
`InvalidArgument` kind, realized as Python `ValueError`). -/
def isInvalidArgument (r : Except PyErr α) : Prop :=
  ∃ msg, r = .error (.valueError msg)

/-! ### `_prepare` tilde-tile computation (`tX`, `tY`) -/

/-- The `_prepare` propagation loop:
`tY[1] = solve(A[0], C[1]); tX[nb-2] = solve(A[-1], B[-2])`, then
`for n in range(2, nb): p = nb-n-1;`
`tY[n] = solve(A[n-1] - B[n-2] @ tY[n-1], C[n]);`
`tX[p] = solve(A[p+1] - C[p+2] @ tX[p+1], B[p])`.
Returns the pair `(tX, tY)`; unassigned positions keep the list
initialization value `0`.  `prepInit` is the state before the loop (the two
initial `solve` assignments), `prepStep` the loop body, `prepTilde` the full
computation. -/
def prepInit (A B C : ℕ → Tile K m) (nb : ℕ) : (ℕ → Tile K m) × (ℕ → Tile K m) :=
  (Function.update (fun _ => 0) (nb - 2) (solve (A (nb - 1)) (B (nb - 2))),
   Function.update (fun _ => 0) 1 (solve (A 0) (C 1)))

/-- One iteration of the `_prepare` loop body at loop index `n`
(`p = nb - n - 1`); the state is the pair `(tX, tY)`. -/
def prepStep (A B C : ℕ → Tile K m) (nb : ℕ)
    (s : (ℕ → Tile K m) × (ℕ → Tile K m)) (n : ℕ) : (ℕ → Tile K m) × (ℕ → Tile K m) :=
  let p := nb - n - 1
  (Function.update s.1 p (solve (A (p + 1) - C (p + 2) * s.1 (p + 1)) (B p)),
   Function.update s.2 n (solve (A (n - 1) - B (n - 2) * s.2 (n - 1)) (C n)))

def prepTilde (A B C : ℕ → Tile K m) (nb : ℕ) : (ℕ → Tile K m) × (ℕ → Tile K m) :=
  (List.range' 2 (nb - 2)).foldl (prepStep A B C nb) (prepInit A B C nb)

/-- The forward recurrence values produced by the `_prepare` loop for `tY`
(used to characterize the loop's result). -/
def tYr (A B C : ℕ → Tile K m) : ℕ → Tile K m
  | 0 => 0
  | 1 => solve (A 0) (C 1)
  | n + 2 => solve (A (n + 1) - B n * tYr A B C (n + 1)) (C (n + 2))

/-- The backward recurrence values produced by the `_prepare` loop for `tX`,
indexed by the distance `k` from the last assigned position:
`tXauxr k` is the value stored at position `nb - 2 - k`. -/
def tXauxr (A B C : ℕ → Tile K m) (nb : ℕ) : ℕ → Tile K m
  | 0 => solve (A (nb - 1)) (B (nb - 2))
  | k + 1 => solve (A (nb - 2 - k) - C (nb - 1 - k) * tXauxr A B C nb k) (B (nb - 3 - k))

/-- The backward recurrence value at position `p` (see `tXauxr`). -/
def tXr (A B C : ℕ → Tile K m) (nb : ℕ) (p : ℕ) : Tile K m :=
  tXauxr A B C nb (nb - 2 - p)

/-! ### `_scattering_state_reduce` -/

variable {F : Type} [LinearOrderedField F]

/-- `np.argsort(-DOS)`: the indices `0 … len(DOS)-1` ordered by descending
(signed) DOS value.  NumPy's default quicksort is unstable, so the order
among equal values is unspecified; it is modelled here by a comparison
sort. -/
def argsortDesc (DOS : List F) : List ℕ :=
  List.insertionSort (fun i j => DOS.getD j 0 ≤ DOS.getD i 0) (List.range DOS.length)

/-- `DeviceGreen._scattering_state_reduce`, tracked at the level of the kept
index list: `N = len(self._data.gamma[elec])` is the number of electrode
orbitals; `idx = np.argsort(-DOS)[:N]`; and when `cutoff > 0` the entries
with `np.fabs(DOS[idx]) < cutoff` are dropped (`DOS[idx], U[:, idx]` are
then returned, i.e. the kept columns are exactly the kept indices). -/
def scattering_state_reduce (N : ℕ) (cutoff : F) (DOS : List F) : List ℕ :=
  let idx := (argsortDesc DOS).take N
  if 0 < cutoff then idx.filter (fun i => cutoff ≤ |DOS.getD i 0|) else idx

/-! ### DeviceGreen cache state machine (`_data`, `reset`, `_check_Ek`,
`_prepare_se`, `_prepare`) -/

/-- The `self._data` `PropertyDict`: each attribute is `none` until it has
been assigned.  `κ` is the k-point type; the energy lives in the scalar
field `K`. -/
structure DGData (K κ T : Type) : Type where
  E : Option K := none
  k : Option κ := none
  gamma : Option (List T) := none
  Aco : Option (ℕ → T) := none
  Bco : Option (ℕ → T) := none
  Cco : Option (ℕ → T) := none
  tX : Option (ℕ → T) := none
  tY : Option (ℕ → T) := none

/-- `DeviceGreen.reset`: `self._data = PropertyDict()`. -/
def DGreset {K κ T : Type} : DGData K κ T :=
  { E := none, k := none, gamma := none, Aco := none, Bco := none, Cco := none,
    tX := none, tY := none }

/-- `DeviceGreen._check_Ek`: if the cache holds an energy and k-point that
match (`np.allclose`, exact equality in this model), report a hit and leave
the cache alone; otherwise `reset` and report a miss. -/
def checkEk {K κ T : Type} [DecidableEq K] [DecidableEq κ]
    (E : K) (k : κ) (s : DGData K κ T) : Bool × DGData K κ T :=
  match s.E, s.k with
  | some E0, some k0 => if E0 = E ∧ k0 = k then (true, s) else (false, DGreset)
  | _, _ => (false, DGreset)

/-- `DeviceGreen._prepare_se`: after `_check_Ek`, on a miss it computes every
electrode self-energy and stores only the `gamma` list.  `gammaF` models the
(opaque) per-electrode self-energy computation at `(E, k)`; the Boolean of
the result records whether that computation ran (i.e. whether the call did
not early-return). -/
def DG_prepare_se {K κ T : Type} [DecidableEq K] [DecidableEq κ]
    (gammaF : K → κ → List T) (E : K) (k : κ) (s : DGData K κ T) :
    DGData K κ T × Bool :=
  let hs := checkEk E k s
  if hs.1 then (hs.2, false)
  else ({ hs.2 with gamma := some (gammaF E k) }, true)

/-- `DeviceGreen._prepare`: after `_check_Ek`, on a miss it computes the
self-energies/gammas, extracts the BTD tiles `A`, `B`, `C` of
`inv_G = E·S − H − ΣΣₑ` (modelled by the opaque functions `AF`, `BF`, `CF`
of `(E, k)`), runs the `prepTilde` loop, and stores everything together with
`E` and `k`. -/
def DG_prepare {κ : Type} [DecidableEq K] [DecidableEq κ]
    (nb : ℕ) (gammaF : K → κ → List (Tile K m))
    (AF BF CF : K → κ → ℕ → Tile K m) (E : K) (k : κ)
    (s : DGData K κ (Tile K m)) : DGData K κ (Tile K m) :=
  let hs := checkEk E k s
  if hs.1 then hs.2
  else
    let A := AF E k
    let B := BF E k
    let C := CF E k
    let t := prepTilde A B C nb
    { hs.2 with gamma := some (gammaF E k), Aco := some A, Bco := some B, Cco := some C,
                tX := some t.1, tY := some t.2, E := some E, k := some k }

/-! ### DownfoldSelfEnergy (`self_energy` block Schur reduction) -/

/-- Diagonal tiles of the downfold matrix after `M[data.elec] -= se`: the
electrode self-energy `σ0` is subtracted at the surface block (block 0 of
the downfold chain, which is ordered surface-first toward the device). -/
def Mdσ (Md : ℕ → Tile K m) (σ0 : Tile K m) : ℕ → Tile K m :=
  fun b => if b = 0 then Md b - σ0 else Md b

/-- The `DownfoldSelfEnergy.self_energy` reduction loop
`Mr = 0; for b in range(B-1): Mr = M[b+1,b] @ solve(M[b,b] - Mr, M[b,b+1])`
over the BTD blocks of the downfold chain.  `downfoldIter … b` is the value
of `Mr` after `b` iterations; the method returns `downfoldIter … (B-1)` for
a `B`-block chain.  `Md b = M[b,b]` (before the `Σ₀` subtraction),
`Ml b = M[b+1,b]`, `Mu b = M[b,b+1]` are the tiles of the (tridiagonal)
downfold matrix `M = E·S − H`. -/
def downfoldIter (Md Ml Mu : ℕ → Tile K m) (σ0 : Tile K m) : ℕ → Tile K m
  | 0 => 0
  | b + 1 => Ml b * solve (Mdσ Md σ0 b - downfoldIter Md Ml Mu σ0 b) (Mu b)

/-- The successively reduced diagonal `M[b,b] − Mr` that the loop inverts at
step `b`. -/
def dred (Md Ml Mu : ℕ → Tile K m) (σ0 : Tile K m) (b : ℕ) : Tile K m :=
  Mdσ Md σ0 b - downfoldIter Md Ml Mu σ0 b

/-- Flattened row/column index of the leading `n+1` blocks of the downfold
chain (each block of size `m`); block `n` is `Sum.inr`. -/
def Idx (m : ℕ) : ℕ → Type
  | 0 => Fin m
  | n + 1 => Idx m n ⊕ Fin m

instance IdxFintype (m : ℕ) : (n : ℕ) → Fintype (Idx m n)
  | 0 => inferInstanceAs (Fintype (Fin m))
  | n + 1 =>
    letI := IdxFintype m n
    inferInstanceAs (Fintype (Idx m n ⊕ Fin m))

instance IdxDecEq (m : ℕ) : (n : ℕ) → DecidableEq (Idx m n)
  | 0 => inferInstanceAs (DecidableEq (Fin m))
  | n + 1 =>
    letI := IdxDecEq m n
    inferInstanceAs (DecidableEq (Idx m n ⊕ Fin m))

/-- The block row `[0, …, 0, Ml n]` coupling block `n+1` of the chain to the
leading `n+1` blocks: by tridiagonality only the adjacent block couples. -/
def chainRow (Ml : ℕ → Tile K m) : (n : ℕ) → Matrix (Fin m) (Idx m n) K
  | 0 => Ml 0
  | n + 1 => Matrix.of fun i j => Sum.elim (fun _ => 0) (fun j2 => Ml (n + 1) i j2) j

/-- The block column `[0; …; 0; Mu n]` coupling the leading `n+1` blocks to
block `n+1` of the chain. -/
def chainCol (Mu : ℕ → Tile K m) : (n : ℕ) → Matrix (Idx m n) (Fin m) K
  | 0 => Mu 0
  | n + 1 => Matrix.of fun i j => Sum.elim (fun _ => 0) (fun i2 => Mu (n + 1) i2 j) i

/-- The leading `(n+1)`-block principal submatrix of the block-tridiagonal
downfold matrix `E·S − H − Σ₀`, built by successive bordering with the
coupling row/column and the next diagonal tile. -/
def Achain (Md Ml Mu : ℕ → Tile K m) (σ0 : Tile K m) : (n : ℕ) → Matrix (Idx m n) (Idx m n) K
  | 0 => Mdσ Md σ0 0
  | n + 1 =>
    Matrix.fromBlocks (Achain Md Ml Mu σ0 n) (chainCol Mu n) (chainRow Ml n)
      (Mdσ Md σ0 (n + 1))

/-- The last (device-adjacent) diagonal tile of a flattened chain matrix. -/
def corner : (n : ℕ) → Matrix (Idx m n) (Idx m n) K → Tile K m
  | 0, M => M
  | _ + 1, M => Matrix.of fun i j => M (Sum.inr i) (Sum.inr j)

/-- The Schur complement of the `(n+2)`-block downfold matrix `E·S − H − Σ₀`
restricted to the device-adjacent (last) block, following the spec's words:
`D − C · A⁻¹ · B`, where `A` is the leading `(n+1)`-block principal part,
`D` the device-adjacent diagonal tile, and `B`, `C` the (tridiagonal)
couplings.  (`minv` coincides with `Matrix.inv`, see `minv_eq_inv`.) -/
def schurLast (Md Ml Mu : ℕ → Tile K m) (σ0 : Tile K m) (n : ℕ) : Tile K m :=
  Mdσ Md σ0 (n + 1) - chainRow Ml n * minv (Achain Md Ml Mu σ0 n) * chainCol Mu n

/-! ### DeviceGreen Green-function blocks
(`_green_array`, `_green_btd`, `_green_column`, `_green_diag_block`) -/

/-- The diagonal-tile formula shared by `_green_array`, `_green_btd`,
`_green_sparse`, `_green_diag_block` and `_green_column`:
`G[0,0] = inv(A[0] − C[1]·tX[0])`,
`G[nb-1,nb-1] = inv(A[nb-1] − B[nb-2]·tY[nb-1])`, otherwise
`G[b,b] = inv(A[b] − B[b-1]·tY[b] − C[b+1]·tX[b])` (`inv_destroy` modelled
by `minv`); `nbm1 = nb − 1`. -/
def gDiag (A B C tX tY : ℕ → Tile K m) (nbm1 : ℕ) (b : ℕ) : Tile K m :=
  if b = 0 then minv (A b - C (b + 1) * tX b)
  else if b = nbm1 then minv (A b - B (b - 1) * tY b)
  else minv (A b - B (b - 1) * tY b - C (b + 1) * tX b)

/-- The upward propagation of `_green_array`/`_green_column`
(`G[a, b] = −tY[a+1] · G[a+1, b]` iterated): `gUp … b k` is the tile `k`
row-blocks above the diagonal tile of column-block `b`. -/
def gUp (A B C tX tY : ℕ → Tile K m) (nbm1 : ℕ) (b : ℕ) : ℕ → Tile K m
  | 0 => gDiag A B C tX tY nbm1 b
  | k + 1 => -(tY (b - k) * gUp A B C tX tY nbm1 b k)

/-- The downward propagation (`G[a, b] = −tX[a-1] · G[a-1, b]` iterated):
`gDn … b k` is the tile `k` row-blocks below the diagonal tile of
column-block `b`. -/
def gDn (A B C tX tY : ℕ → Tile K m) (nbm1 : ℕ) (b : ℕ) : ℕ → Tile K m
  | 0 => gDiag A B C tX tY nbm1 b
  | k + 1 => -(tX (b + k) * gDn A B C tX tY nbm1 b k)

/-- Block `(i, j)` of the dense matrix produced by `_green_array`: column
`j` holds the diagonal formula at `(j, j)`, propagated up by `−tY` and down
by `−tX`. -/
def green_array (A B C tX tY : ℕ → Tile K m) (nbm1 : ℕ) (i j : ℕ) : Tile K m :=
  if i < j then gUp A B C tX tY nbm1 j (j - i)
  else gDn A B C tX tY nbm1 j (i - j)

/-- The `BlockMatrix` produced by `_green_btd`: the loop
`for b in range(nb)` stores `BI[b,b] = G11`, `BI[b-1,b] = −tY[b]·G11`
(for `b > 0`) and `BI[b+1,b] = −tX[b]·G11` (for `b < nb-1`); all other keys
are absent. -/
def green_btd (A B C tX tY : ℕ → Tile K m) (nbm1 : ℕ) : BlockMatrixMap (Tile K m) :=
  fun i j =>
    if j ≤ nbm1 then
      if i = j then some (gDiag A B C tX tY nbm1 j)
      else if i + 1 = j then some (-(tY j * gDiag A B C tX tY nbm1 j))
      else if i = j + 1 ∧ j < nbm1 then some (-(tX j * gDiag A B C tX tY nbm1 j))
      else none
    else none

/-- The upward full-column propagation loop shared by `_green_column`
(`for b in range(blocks[0]-1, -1, -1): G[b,:] = −tY[b+1] @ G[b+1,:]`):
`upProp tY b base k` is the column-block `k` row-blocks above the top base
row-block `b`. -/
def upProp {ι : Type} (tY : ℕ → Tile K m) (b : ℕ) (base : Matrix (Fin m) ι K) :
    ℕ → Matrix (Fin m) ι K
  | 0 => base
  | k + 1 => -(tY (b - k) * upProp tY b base k)

/-- The downward full-column propagation loop shared by `_green_column`
(`for b in range(blocks[-1]+1, nb): G[b,:] = −tX[b-1] @ G[b-1,:]`):
`dnProp tX b base k` is the column-block `k` row-blocks below the bottom
base row-block `b`. -/
def dnProp {ι : Type} (tX : ℕ → Tile K m) (b : ℕ) (base : Matrix (Fin m) ι K) :
    ℕ → Matrix (Fin m) ι K
  | 0 => base
  | k + 1 => -(tX (b + k) * dnProp tX b base k)

/-- The base row of `_green_diag_block`/`_green_column` for an electrode
index set lying in the single block `eb` (`len(blocks) == 1`): the diagonal
formula at `eb`, restricted to the electrode columns `b_idx` (the numpy
column selection `[:, b_idx]` is `submatrix id g`). -/
def greenDiagBlock1 (A B C tX tY : ℕ → Tile K m) (nbm1 eb : ℕ) {q : ℕ}
    (g : Fin q → Fin m) : Matrix (Fin m) (Fin q) K :=
  (gDiag A B C tX tY nbm1 eb).submatrix id g

/-- The first (row-block `e0`) base row of `_green_diag_block` and
`_green_column` for an electrode spanning the two consecutive blocks
`e0, e0+1` (`len(blocks) == 2`): the block-`e0` electrode columns come
first (`r_idx = arange(len(b_idx))`, left summand) holding the diagonal
formula at `e0` restricted to `b_idx` of `e0`, and the block-`e0+1`
electrode columns (right summand) hold the above-propagated
`−tY[e0+1] @` (diagonal formula at `e0+1` restricted). -/
def greenDiagBlock2fst (A B C tX tY : ℕ → Tile K m) (nbm1 e0 : ℕ) {q0 q1 : ℕ}
    (g0 : Fin q0 → Fin m) (g1 : Fin q1 → Fin m) : Matrix (Fin m) (Fin q0 ⊕ Fin q1) K :=
  Matrix.fromColumns ((gDiag A B C tX tY nbm1 e0).submatrix id g0)
    (-(tY (e0 + 1) * (gDiag A B C tX tY nbm1 (e0 + 1)).submatrix id g1))

/-- The second (row-block `e0+1`) base row of `_green_diag_block` and
`_green_column` for the two-block electrode: the block-`e0` columns hold
the below-propagated `−tX[e0] @` (diagonal at `e0` restricted), the
block-`e0+1` columns hold the diagonal formula at `e0+1` restricted. -/
def greenDiagBlock2snd (A B C tX tY : ℕ → Tile K m) (nbm1 e0 : ℕ) {q0 q1 : ℕ}
    (g0 : Fin q0 → Fin m) (g1 : Fin q1 → Fin m) : Matrix (Fin m) (Fin q0 ⊕ Fin q1) K :=
  Matrix.fromColumns (-(tX e0 * (gDiag A B C tX tY nbm1 e0).submatrix id g0))
    ((gDiag A B C tX tY nbm1 (e0 + 1)).submatrix id g1)

/-- `_green_column` for an electrode index set lying in the single block
`eb` (`len(blocks) == 1`): row-block `i` of the returned column — the
restricted diagonal formula at `eb`, propagated up by the `−tY` and down
by the `−tX` full-column loops. -/
def green_column (A B C tX tY : ℕ → Tile K m) {q : ℕ} (g : Fin q → Fin m)
    (nbm1 eb i : ℕ) : Matrix (Fin m) (Fin q) K :=
  if i < eb then upProp tY eb (greenDiagBlock1 A B C tX tY nbm1 eb g) (eb - i)
  else dnProp tX eb (greenDiagBlock1 A B C tX tY nbm1 eb g) (i - eb)

/-- `_green_column` for an electrode spanning the two consecutive blocks
`e0, e0+1`: row-blocks `e0` and `e0+1` are the two base rows, everything
above/below is produced by the same full-column `−tY`/`−tX` loops. -/
def green_column2 (A B C tX tY : ℕ → Tile K m) {q0 q1 : ℕ} (g0 : Fin q0 → Fin m)
    (g1 : Fin q1 → Fin m) (nbm1 e0 i : ℕ) : Matrix (Fin m) (Fin q0 ⊕ Fin q1) K :=
  if i < e0 then upProp tY e0 (greenDiagBlock2fst A B C tX tY nbm1 e0 g0 g1) (e0 - i)
  else if i = e0 then greenDiagBlock2fst A B C tX tY nbm1 e0 g0 g1
  else dnProp tX (e0 + 1) (greenDiagBlock2snd A B C tX tY nbm1 e0 g0 g1) (i - (e0 + 1))

/-! ### `_spectral_propagate` (herm variant, the default) -/

/-- The partially-filled dense spectral matrix `S` of `_spectral_propagate`
at block resolution: `none` is a block of the `np.empty` allocation that has
not been written yet. -/
def SpecState (K : Type) (m : ℕ) : Type := ℕ → ℕ → Option (Tile K m)

/-- Write tile `(r, c)` of `S`. -/
def updS (S : SpecState K m) (r c : ℕ) (v : Tile K m) : SpecState K m :=
  fun a b => if a = r ∧ b = c then some v else S a b

/-- Read tile `(r, c)` of `S` (`0` stands for the unspecified contents of
uninitialized memory; the theorems below only ever read written tiles). -/
def getS (S : SpecState K m) (r c : ℕ) : Tile K m := (S r c).getD 0

/-- `below(i, j)` of `_spectral_propagate` (herm variant): until
`nbm1 ≤ i`, write `S[i+1, j] = −tX[i]·S[i, j]` (`below_calc`) when
`i+1 ≥ j`, else copy `S[i+1, j] = S[j, i+1]ᴴ` (`copy_herm`), then recurse
at `i+1`. -/
def belowS (tX : ℕ → Tile K m) (nbm1 : ℕ) (i j : ℕ) (S : SpecState K m) : SpecState K m :=
  if h : nbm1 ≤ i then S
  else
    belowS tX nbm1 (i + 1) j
      (if j ≤ i + 1 then updS S (i + 1) j (-(tX i * getS S i j))
       else updS S (i + 1) j (dagger (getS S j (i + 1))))
termination_by nbm1 - i

/-- `above(i, j)` of `_spectral_propagate` (herm variant): until `i ≤ 0`,
write `S[i-1, j] = −tY[i]·S[i, j]` (`above_calc`) when `i-1 ≥ j`, else copy
`S[i-1, j] = S[j, i-1]ᴴ`, then recurse at `i-1`. -/
def aboveS (tY : ℕ → Tile K m) : ℕ → ℕ → SpecState K m → SpecState K m
  | 0, _, S => S
  | i + 1, j, S =>
    aboveS tY i j
      (if j ≤ i then updS S i j (-(tY (i + 1) * getS S (i + 1) j))
       else updS S i j (dagger (getS S j i)))

/-- `if b: below(i, j)` as it appears in `left`/`right`. -/
def flagBelow (tX : ℕ → Tile K m) (nbm1 : ℕ) (fb : Bool) (i j : ℕ)
    (S : SpecState K m) : SpecState K m :=
  if fb then belowS tX nbm1 i j S else S

/-- `if a: above(i, j)` as it appears in `left`/`right`. -/
def flagAbove (tY : ℕ → Tile K m) (fa : Bool) (i j : ℕ)
    (S : SpecState K m) : SpecState K m :=
  if fa then aboveS tY i j S else S

/-- `left(i, j, a, b)` of `_spectral_propagate` (herm variant): until
`j ≤ 0`, write `S[i, j-1] = −S[i, j]·tY[j]ᴴ` (`left_calc`) when `i ≥ j-1`,
else copy `S[i, j-1] = S[j-1, i]ᴴ`; recurse on the column, then run
`below(i, j-1)` when flag `b` and `above(i, j-1)` when flag `a`. -/
def leftS (tX tY : ℕ → Tile K m) (nbm1 i : ℕ) (fa fb : Bool) :
    ℕ → SpecState K m → SpecState K m
  | 0, S => S
  | j + 1, S =>
    flagAbove tY fa i j
      (flagBelow tX nbm1 fb i j
        (leftS tX tY nbm1 i fa fb j
          (if j ≤ i then updS S i j (-(getS S i (j + 1) * dagger (tY (j + 1))))
           else updS S i j (dagger (getS S j i)))))

/-- `right(i, j, a, b)` of `_spectral_propagate` (herm variant): until
`nbm1 ≤ j`, write `S[i, j+1] = −S[i, j]·tX[j]ᴴ` (`right_calc`) when
`i ≥ j+1`, else copy `S[i, j+1] = S[j+1, i]ᴴ`; run `above(i, j+1)` when
flag `a` and `below(i, j+1)` when flag `b`, then recurse on the column. -/
def rightS (tX tY : ℕ → Tile K m) (nbm1 i : ℕ) (fa fb : Bool) (j : ℕ)
    (S : SpecState K m) : SpecState K m :=
  if h : nbm1 ≤ j then S
  else
    rightS tX tY nbm1 i fa fb (j + 1)
      (flagBelow tX nbm1 fb i (j + 1)
        (flagAbove tY fa i (j + 1)
          (if j + 1 ≤ i then updS S i (j + 1) (-(getS S i j * dagger (tX j)))
           else updS S i (j + 1) (dagger (getS S (j + 1) i)))))
termination_by nbm1 - j

/-- `_spectral_propagate` (herm variant) for an electrode whose device
orbitals lie in the single block `eb` (`len(blocks) == 1`): seed
`S[eb, eb] = A·Γₑ·Aᴴ` with `A` the restricted diagonal row computed by
`_green_diag_block`, then traverse
`left(eb,eb,True,True); above(eb,eb); below(eb,eb); right(eb,eb,True,True)`. -/
def spectral_propagate (A B C tX tY : ℕ → Tile K m) {q : ℕ} (g : Fin q → Fin m)
    (Gam : Matrix (Fin q) (Fin q) K) (nbm1 eb : ℕ) : SpecState K m :=
  rightS tX tY nbm1 eb true true eb
    (belowS tX nbm1 eb eb
      (aboveS tY eb eb
        (leftS tX tY nbm1 eb true true eb
          (updS (fun _ _ => none) eb eb
            (greenDiagBlock1 A B C tX tY nbm1 eb g * Gam
              * (greenDiagBlock1 A B C tX tY nbm1 eb g).conjTranspose)))))

/-- `_spectral_propagate` (herm variant) for an electrode spanning the
two consecutive blocks `e0, e0+1` (`len(blocks) == 2`): the seed
`S[c[e0]:c[e0+2], c[e0]:c[e0+2]] = A·Γₑ·Aᴴ` writes, with `A` stacking the
two `_green_diag_block` base rows, the four tiles
`(row r of A)·Γₑ·(row s of A)ᴴ` at `(e_r, e_s)`; then the source's else
branch traverses `left(e1,e0,F,T); left(e0,e0,T,F); above(e0,e0);
above(e0,e1); below(e1,e0); below(e1,e1); right(e0,e1,T,F);
right(e1,e1,F,T)` with `e1 = e0+1`. -/
def spectral_propagate2 (A B C tX tY : ℕ → Tile K m) {q0 q1 : ℕ} (g0 : Fin q0 → Fin m)
    (g1 : Fin q1 → Fin m) (Gam : Matrix (Fin q0 ⊕ Fin q1) (Fin q0 ⊕ Fin q1) K)
    (nbm1 e0 : ℕ) : SpecState K m :=
  rightS tX tY nbm1 (e0 + 1) false true (e0 + 1)
    (rightS tX tY nbm1 e0 true false (e0 + 1)
      (belowS tX nbm1 (e0 + 1) (e0 + 1)
        (belowS tX nbm1 (e0 + 1) e0
          (aboveS tY e0 (e0 + 1)
            (aboveS tY e0 e0
              (leftS tX tY nbm1 e0 true false e0
                (leftS tX tY nbm1 (e0 + 1) false true e0
                  (updS (updS (updS (updS (fun _ _ => none)
                    e0 e0
                    (greenDiagBlock2fst A B C tX tY nbm1 e0 g0 g1 * Gam
                      * (greenDiagBlock2fst A B C tX tY nbm1 e0 g0 g1).conjTranspose))
                    e0 (e0 + 1)
                    (greenDiagBlock2fst A B C tX tY nbm1 e0 g0 g1 * Gam
                      * (greenDiagBlock2snd A B C tX tY nbm1 e0 g0 g1).conjTranspose))
                    (e0 + 1) e0
                    (greenDiagBlock2snd A B C tX tY nbm1 e0 g0 g1 * Gam
                      * (greenDiagBlock2fst A B C tX tY nbm1 e0 g0 g1).conjTranspose))
                    (e0 + 1) (e0 + 1)
                    (greenDiagBlock2snd A B C tX tY nbm1 e0 g0 g1 * Gam
                      * (greenDiagBlock2snd A B C tX tY nbm1 e0 g0 g1).conjTranspose)))))))))

/-- `_spectral_column` at block resolution for a single-block electrode:
block `(i, j)` of the dense `G @ Γₑ @ dagger(G)` with
`G = _green_column(...)` is `G_i · Γₑ · (G_j)ᴴ`. -/
def spectral_column (A B C tX tY : ℕ → Tile K m) {q : ℕ} (g : Fin q → Fin m)
    (Gam : Matrix (Fin q) (Fin q) K) (nbm1 eb i j : ℕ) : Tile K m :=
  green_column A B C tX tY g nbm1 eb i * Gam
    * (green_column A B C tX tY g nbm1 eb j).conjTranspose

/-- `_spectral_column` at block resolution for a two-block electrode. -/
def spectral_column2 (A B C tX tY : ℕ → Tile K m) {q0 q1 : ℕ} (g0 : Fin q0 → Fin m)
    (g1 : Fin q1 → Fin m) (Gam : Matrix (Fin q0 ⊕ Fin q1) (Fin q0 ⊕ Fin q1) K)
    (nbm1 e0 i j : ℕ) : Tile K m :=
  green_column2 A B C tX tY g0 g1 nbm1 e0 i * Gam
    * (green_column2 A B C tX tY g0 g1 nbm1 e0 j).conjTranspose

/-! ### Concrete instances used by witnesses -/

/-- Concrete diagonal tiles for the 2-block downfold counterexample. -/
def exMd : ℕ → Tile ℚ 1 := fun b => if b = 0 then Matrix.of (fun _ _ => 2) else Matrix.of (fun _ _ => 5)

/-- Concrete (identity) coupling tiles for the downfold counterexample. -/
def exOne : ℕ → Tile ℚ 1 := fun _ => Matrix.of (fun _ _ => 1)

/-- Concrete surface self-energy for the downfold counterexample. -/
def exSigma : Tile ℚ 1 := Matrix.of (fun _ _ => 1)

/-- A constant family of 1×1 rational tiles, used as witness data. -/
def oneTiles : ℕ → Tile ℚ 1 := fun _ => 1

/-- A concrete DOS vector, used as witness data. -/
def dosExample : List ℚ := [1, -5, 3, 1/4]

/-- A concrete Hermitian broadening tile, used as witness data. -/
def exGam : Tile ℚ 1 := Matrix.of (fun _ _ => 2)

/-- A concrete electrode column selection, used as witness data. -/
def exSel : Fin 1 → Fin 1 := id

/-- A concrete Hermitian broadening for the two-block electrode witness. -/
def exGam2 : Matrix (Fin 1 ⊕ Fin 1) (Fin 1 ⊕ Fin 1) ℚ := 1

/-! ## Theorems -/

/-- `minv` coincides with Mathlib's nonsingular inverse in all cases. -/
theorem minv_eq_inv {n : Type} [Fintype n] [DecidableEq n] (A : Matrix n n K) :
    minv A = A⁻¹ := by
  rw [Matrix.inv_def, Ring.inverse_eq_inv]
  unfold minv
  by_cases h : A.det = 0
  · simp [h]
  · simp [h]

/-- **C5** (code bug): `BlockMatrix.tobtd` is claimed to retain every tile
with `|i−j| ≤ 1`, including the sub-diagonal tiles `(j+1, j)` and the last
diagonal tile `(B−1, B−1)`.  The loop bound `range(max(0, j-1), min(j+1, nb-1))`
is exclusive at `min(j+1, nb-1)`, so for a fully populated 2-block matrix the
sub-diagonal tile `(1, 0)` and the last diagonal tile `(1, 1)` are dropped,
while `(0, 0)` and `(0, 1)` are kept. -/
theorem tobtd_drops_subdiag_and_last_diag :
    (tobtd 2 (fun i j => if i < 2 ∧ j < 2 then some true else none) 1 1 = none) ∧
    (tobtd 2 (fun i j => if i < 2 ∧ j < 2 then some true else none) 1 0 = none) ∧
    (tobtd 2 (fun i j => if i < 2 ∧ j < 2 then some true else none) 0 0 = some true) ∧
    (tobtd 2 (fun i j => if i < 2 ∧ j < 2 then some true else none) 0 1 = some true) := by
  decide

/-- **C7** (counterexample): `spectral` with `format='btd'`,
`method='propagate'` does not fail with the `NotImplemented` error kind: the
dispatcher never reaches `_spectral_propagate_btd` (whose body starts with
`raise NotImplementedError`); the combination falls through to the final
`raise ValueError` instead. -/
theorem spectral_btd_propagate_not_notImplemented :
    ¬ (DeviceGreen_spectral ["Left"] [(0 : ℕ)] "btd" "propagate" (.idx 0)
        = .error .notImplementedError) := by
  intro h
  rw [show DeviceGreen_spectral ["Left"] [(0 : ℕ)] "btd" "propagate" (.idx 0)
        = .error (.valueError (spectralComboMsg "btd" "propagate")) from rfl] at h
  simp at h

/-- **C7** (amended): for every electrode argument, `spectral` with
`format='btd'`, `method='propagate'` fails with the `ValueError`
(invalid-argument) kind raised at the end of the dispatch. -/
theorem spectral_btd_propagate_valueError (elecs : List String) (pvt_dev : List α)
    (elec : ElecArg) :
    DeviceGreen_spectral elecs pvt_dev "btd" "propagate" elec
      = .error (.valueError (spectralComboMsg "btd" "propagate")) := by
  rfl

/-- **C8** (counterexample): calling `spectral` with the unknown electrode
name `"Gate"` does not fail with an `InvalidArgument` (`ValueError`) kind; it
fails with a `TypeError` from list indexing whose message does not mention
the name. -/
theorem spectral_unknown_elec_not_invalidArgument :
    (DeviceGreen_spectral ["Left", "Right"] [(0 : ℕ), 1] "array" "column" (.name "Gate")
       = .error (.typeError "list indices must be integers or slices, not str")) ∧
    ¬ isInvalidArgument
        (DeviceGreen_spectral ["Left", "Right"] [(0 : ℕ), 1] "array" "column" (.name "Gate")) := by
  refine ⟨rfl, ?_⟩
  rintro ⟨msg, h⟩
  rw [show DeviceGreen_spectral ["Left", "Right"] [(0 : ℕ), 1] "array" "column" (.name "Gate")
        = .error (.typeError "list indices must be integers or slices, not str") from rfl] at h
  simp at h

/-- **C8** (amended): an unknown electrode name is returned unchanged by
`_elec`, and both `spectral` and `scattering_state` then fail with a
`TypeError` (not an `InvalidArgument`) when the string is used to index the
`elecs_pvt_dev` list. -/
theorem spectral_unknown_elec_typeError (elecs : List String) (pvt_dev : List α)
    (s : String) (h : s ∉ elecs) :
    DeviceGreen_elec elecs (.name s) = .name s ∧
    DeviceGreen_spectral elecs pvt_dev "array" "column" (.name s)
      = .error (.typeError "list indices must be integers or slices, not str") ∧
    DeviceGreen_scattering_state elecs pvt_dev "svd" (.name s)
      = .error (.typeError "list indices must be integers or slices, not str") := by
  have hfind : elecs.findIdx? (fun el => decide (el = s)) = none := by
    rw [List.findIdx?_eq_none_iff]
    intro x hx
    have hxs : x ≠ s := fun hxs => h (hxs ▸ hx)
    simp [hxs]
  have he : DeviceGreen_elec elecs (.name s) = .name s := by
    simp only [DeviceGreen_elec]
    rw [hfind]
  refine ⟨he, ?_, ?_⟩
  · simp [DeviceGreen_spectral, he, pyListIndex]
  · simp [DeviceGreen_scattering_state, he, pyListIndex]

/-- Witness for `spectral_unknown_elec_typeError` at a concrete repository
configuration. -/
theorem spectral_unknown_elec_typeError_witness :
    ("Gate" ∉ ["Left", "Right"]) ∧
    DeviceGreen_spectral ["Left", "Right"] [(0 : ℕ), 1] "array" "column" (.name "Gate")
      = .error (.typeError "list indices must be integers or slices, not str") :=
  ⟨by decide,
   (spectral_unknown_elec_typeError ["Left", "Right"] [0, 1] "Gate" (by decide)).2.1⟩

/-- **C9**: `_prepare` is idempotent under matching `(E, k)`: after one call,
`_check_Ek` reports a hit for the same `(E, k)` (leaving the cache alone),
so a second `_prepare` call early-returns and the state — every cached field
`A`, `B`, `C`, `tX`, `tY`, `gamma`, `E`, `k` — is unchanged. -/
theorem prepare_idempotent {κ : Type} [DecidableEq K] [DecidableEq κ]
    (nb : ℕ) (gammaF : K → κ → List (Tile K m)) (AF BF CF : K → κ → ℕ → Tile K m)
    (E : K) (k : κ) (s : DGData K κ (Tile K m)) :
    checkEk E k (DG_prepare nb gammaF AF BF CF E k s)
        = (true, DG_prepare nb gammaF AF BF CF E k s) ∧
    DG_prepare nb gammaF AF BF CF E k (DG_prepare nb gammaF AF BF CF E k s)
        = DG_prepare nb gammaF AF BF CF E k s := by
  have hmain : checkEk E k (DG_prepare nb gammaF AF BF CF E k s)
      = (true, DG_prepare nb gammaF AF BF CF E k s) := by
    cases hE : s.E with
    | none => simp [DG_prepare, checkEk, hE]
    | some E0 =>
      cases hk : s.k with
      | none => simp [DG_prepare, checkEk, hE, hk]
      | some k0 =>
        by_cases hmatch : E0 = E ∧ k0 = k
        · simp [DG_prepare, checkEk, hE, hk, hmatch]
        · simp [DG_prepare, checkEk, hE, hk, hmatch]
  have h2 : ∀ s2 : DGData K κ (Tile K m), checkEk E k s2 = (true, s2) →
      DG_prepare nb gammaF AF BF CF E k s2 = s2 := by
    intro s2 h12
    unfold DG_prepare
    simp [h12]
  exact ⟨hmain, h2 _ hmain⟩

/-- **C10**: `_prepare_se` on a freshly reset `DeviceGreen` stores only the
`gamma` list — in particular it never records `E` and `k` (nor `A`, `B`,
`C`, `tX`, `tY`) — so the cache does not validate as matching `(E, k)`
afterwards, and a repeated `_prepare_se` recomputes every electrode
self-energy (the computation flag is `true` again) instead of
early-returning; the recomputation leaves the state unchanged. -/
theorem prepare_se_writes_only_gamma {K2 κ T : Type} [DecidableEq K2] [DecidableEq κ]
    (gammaF : K2 → κ → List T) (E : K2) (k : κ) :
    (DG_prepare_se gammaF E k (DGreset (K := K2) (κ := κ) (T := T))).1.gamma
        = some (gammaF E k) ∧
    (DG_prepare_se gammaF E k DGreset).1.E = none ∧
    (DG_prepare_se gammaF E k DGreset).1.k = none ∧
    (DG_prepare_se gammaF E k DGreset).1.Aco = none ∧
    (DG_prepare_se gammaF E k DGreset).1.Bco = none ∧
    (DG_prepare_se gammaF E k DGreset).1.Cco = none ∧
    (DG_prepare_se gammaF E k DGreset).1.tX = none ∧
    (DG_prepare_se gammaF E k DGreset).1.tY = none ∧
    (DG_prepare_se gammaF E k DGreset).2 = true ∧
    (checkEk E k (DG_prepare_se gammaF E k DGreset).1).1 = false ∧
    (DG_prepare_se gammaF E k (DG_prepare_se gammaF E k DGreset).1).2 = true ∧
    (DG_prepare_se gammaF E k (DG_prepare_se gammaF E k DGreset).1).1
        = (DG_prepare_se gammaF E k DGreset).1 := by
  simp [DG_prepare_se, checkEk, DGreset]

/-- Pointwise form of the `tY` update performed by the loop body. -/
theorem prepStep_snd (A B C : ℕ → Tile K m) (nb : ℕ)
    (s : (ℕ → Tile K m) × (ℕ → Tile K m)) (n j : ℕ) :
    (prepStep A B C nb s n).2 j
      = if j = n then solve (A (n - 1) - B (n - 2) * s.2 (n - 1)) (C n) else s.2 j := by
  show Function.update s.2 n (solve (A (n - 1) - B (n - 2) * s.2 (n - 1)) (C n)) j = _
  rw [Function.update_apply]

/-- Pointwise form of the `tX` update performed by the loop body. -/
theorem prepStep_fst (A B C : ℕ → Tile K m) (nb : ℕ)
    (s : (ℕ → Tile K m) × (ℕ → Tile K m)) (n p : ℕ) :
    (prepStep A B C nb s n).1 p
      = if p = nb - n - 1 then
          solve (A (nb - n - 1 + 1) - C (nb - n - 1 + 2) * s.1 (nb - n - 1 + 1)) (B (nb - n - 1))
        else s.1 p := by
  show Function.update s.1 (nb - n - 1)
      (solve (A (nb - n - 1 + 1) - C (nb - n - 1 + 2) * s.1 (nb - n - 1 + 1)) (B (nb - n - 1))) p = _
  rw [Function.update_apply]

/-- Invariant of the `_prepare` loop after `t` iterations: `tY` holds the
forward-recurrence values at positions `1 … t+1`, `tX` the
backward-recurrence values at positions `nb-2-t … nb-2`, and all other
positions still hold the initialization value `0`. -/
theorem prepFold_inv (A B C : ℕ → Tile K m) (nb : ℕ) :
    ∀ t, 2 + t ≤ nb →
      (∀ j, ((List.range' 2 t).foldl (prepStep A B C nb) (prepInit A B C nb)).2 j
          = if 1 ≤ j ∧ j ≤ t + 1 then tYr A B C j else 0) ∧
      (∀ p, ((List.range' 2 t).foldl (prepStep A B C nb) (prepInit A B C nb)).1 p
          = if nb - 2 - t ≤ p ∧ p ≤ nb - 2 then tXr A B C nb p else 0) := by
  intro t
  induction t with
  | zero =>
    intro _
    constructor
    · intro j
      show Function.update (fun _ => (0 : Tile K m)) 1 (solve (A 0) (C 1)) j = _
      rw [Function.update_apply]
      by_cases hj : j = 1
      · rw [if_pos hj, if_pos (by omega), hj, tYr]
      · rw [if_neg hj, if_neg (by omega)]
    · intro p
      show Function.update (fun _ => (0 : Tile K m)) (nb - 2) (solve (A (nb - 1)) (B (nb - 2))) p = _
      rw [Function.update_apply]
      by_cases hp : p = nb - 2
      · rw [if_pos hp, if_pos (by omega), hp]
        unfold tXr
        rw [show nb - 2 - (nb - 2) = 0 from by omega, tXauxr]
      · rw [if_neg hp, if_neg (by omega)]
  | succ t ih =>
    intro ht
    have ht3 : t + 3 ≤ nb := by omega
    obtain ⟨ihY, ihX⟩ := ih (by omega)
    rw [List.range'_1_concat, List.foldl_append, List.foldl_cons, List.foldl_nil]
    constructor
    · intro j
      rw [prepStep_snd]
      by_cases hj : j = 2 + t
      · rw [if_pos hj, hj]
        have h1 : 2 + t - 1 = t + 1 := by omega
        have h2 : 2 + t - 2 = t := by omega
        rw [h1, h2, ihY (t + 1), if_pos (by omega), if_pos (by omega)]
        rw [show 2 + t = t + 2 from by omega, tYr]
      · rw [if_neg hj, ihY j]
        by_cases hcond : 1 ≤ j ∧ j ≤ t + 1
        · rw [if_pos hcond, if_pos (by omega)]
        · rw [if_neg hcond, if_neg (by omega)]
    · intro p
      rw [prepStep_fst]
      by_cases hp : p = nb - (2 + t) - 1
      · rw [if_pos hp, hp]
        rw [ihX (nb - (2 + t) - 1 + 1), if_pos (by constructor <;> omega), if_pos (by omega)]
        unfold tXr
        have e1 : nb - 2 - (nb - (2 + t) - 1) = t + 1 := by omega
        have e2 : nb - 2 - (nb - (2 + t) - 1 + 1) = t := by omega
        rw [e1, e2, tXauxr]
        have e3 : nb - (2 + t) - 1 + 1 = nb - 2 - t := by omega
        have e4 : nb - (2 + t) - 1 + 2 = nb - 1 - t := by omega
        have e5 : nb - (2 + t) - 1 = nb - 3 - t := by omega
        rw [e3, e4, e5]
      · rw [if_neg hp, ihX p]
        by_cases hcond : nb - 2 - t ≤ p ∧ p ≤ nb - 2
        · rw [if_pos hcond, if_pos (by omega)]
        · rw [if_neg hcond, if_neg (by omega)]

/-- Characterization of the tilde tiles cached by `_prepare`. -/
theorem prepTilde_eq (A B C : ℕ → Tile K m) (nb : ℕ) (hnb : 2 ≤ nb) :
    (∀ j, (prepTilde A B C nb).2 j
        = if 1 ≤ j ∧ j ≤ nb - 1 then tYr A B C j else 0) ∧
    (∀ p, (prepTilde A B C nb).1 p
        = if p ≤ nb - 2 then tXr A B C nb p else 0) := by
  obtain ⟨hY, hX⟩ := prepFold_inv A B C nb (nb - 2) (by omega)
  unfold prepTilde
  constructor
  · intro j
    rw [hY j]
    by_cases hcond : 1 ≤ j ∧ j ≤ nb - 2 + 1
    · rw [if_pos hcond, if_pos (by omega)]
    · rw [if_neg hcond, if_neg (by omega)]
  · intro p
    rw [hX p]
    by_cases hcond : p ≤ nb - 2
    · rw [if_pos (by omega), if_pos hcond]
    · rw [if_neg (by omega), if_neg hcond]

/-- **C4**: after `_prepare` with `B ≥ 2` blocks, the cached tiles satisfy
`tY[1] = A[0]⁻¹·C[1]`, `tY[n] = (A[n-1] − B[n-2]·tY[n-1])⁻¹·C[n]` for
`n = 2 … B−1`, `tX[B-2] = A[B-1]⁻¹·B[B-2]`, and
`tX[p] = (A[p+1] − C[p+2]·tX[p+1])⁻¹·B[p]` for `p = B−3 … 0`.  (In this
exact-arithmetic model `solve` returns `minv a * b` with `minv = Matrix.inv`
unconditionally, so the identities hold with no nonsingularity caveat; on
nonsingular input this is the unique solution LAPACK returns.) -/
theorem prepTilde_recurrences (A B C : ℕ → Tile K m) (nb : ℕ) (hnb : 2 ≤ nb) :
    (prepTilde A B C nb).2 1 = (A 0)⁻¹ * C 1 ∧
    (∀ n, 2 ≤ n → n ≤ nb - 1 →
      (prepTilde A B C nb).2 n
        = (A (n - 1) - B (n - 2) * (prepTilde A B C nb).2 (n - 1))⁻¹ * C n) ∧
    (prepTilde A B C nb).1 (nb - 2) = (A (nb - 1))⁻¹ * B (nb - 2) ∧
    (∀ p, p + 3 ≤ nb →
      (prepTilde A B C nb).1 p
        = (A (p + 1) - C (p + 2) * (prepTilde A B C nb).1 (p + 1))⁻¹ * B p) := by
  obtain ⟨hY, hX⟩ := prepTilde_eq A B C nb hnb
  refine ⟨?_, ?_, ?_, ?_⟩
  · rw [hY 1, if_pos (by omega)]
    show solve (A 0) (C 1) = _
    unfold solve
    rw [minv_eq_inv]
  · intro n h2 hn
    obtain ⟨t, rfl⟩ : ∃ t, n = t + 2 := ⟨n - 2, by omega⟩
    rw [hY (t + 2), if_pos (by omega), hY (t + 2 - 1), if_pos (by omega)]
    have h1 : t + 2 - 1 = t + 1 := by omega
    have h2' : t + 2 - 2 = t := by omega
    rw [h1, h2', tYr]
    unfold solve
    rw [minv_eq_inv]
  · rw [hX (nb - 2), if_pos (by omega)]
    unfold tXr
    have e0 : nb - 2 - (nb - 2) = 0 := by omega
    rw [e0, tXauxr]
    unfold solve
    rw [minv_eq_inv]
  · intro p hp
    rw [hX p, if_pos (by omega), hX (p + 1), if_pos (by omega)]
    unfold tXr
    have e1 : nb - 2 - p = (nb - 3 - p) + 1 := by omega
    have e2 : nb - 2 - (p + 1) = nb - 3 - p := by omega
    rw [e1, e2, tXauxr]
    have e3 : nb - 2 - (nb - 3 - p) = p + 1 := by omega
    have e4 : nb - 1 - (nb - 3 - p) = p + 2 := by omega
    have e5 : nb - 3 - (nb - 3 - p) = p := by omega
    rw [e3, e4, e5]
    unfold solve
    rw [minv_eq_inv]

/-- Witness for `prepTilde_recurrences` at a concrete 4-block configuration
over 1×1 rational tiles. -/
theorem prepTilde_recurrences_witness :
    (2 : ℕ) ≤ 4 ∧ (2 : ℕ) ≤ 3 ∧ (3 : ℕ) ≤ 4 - 1 ∧
    (prepTilde oneTiles oneTiles oneTiles 4).2 3
      = (oneTiles (3 - 1) - oneTiles (3 - 2) * (prepTilde oneTiles oneTiles oneTiles 4).2 (3 - 1))⁻¹
          * oneTiles 3 :=
  ⟨by omega, by omega, by omega,
   (prepTilde_recurrences oneTiles oneTiles oneTiles 4 (by omega)).2.1 3 (by omega) (by omega)⟩

/-- **C6**: the reduction shared by the three `scattering_state` methods
keeps exactly the `N` indices of largest signed DOS (where `N` is the
number of electrode orbitals), in descending DOS order; when `cutoff > 0`
it additionally drops, from those, every index with `|DOS| < cutoff` —
so an index with a large negative DOS among the `N` signed-largest is
retained; when `cutoff ≤ 0` no further filtering happens. -/
theorem scattering_state_reduce_spec (N : ℕ) (cutoff : F) (DOS : List F) :
    ((argsortDesc DOS).take N).length = min N DOS.length ∧
    (∀ i ∈ (argsortDesc DOS).take N, i < DOS.length) ∧
    (∀ i ∈ (argsortDesc DOS).take N, ∀ j, j < DOS.length → j ∉ (argsortDesc DOS).take N →
        DOS.getD j 0 ≤ DOS.getD i 0) ∧
    List.Sorted (fun i j => DOS.getD j 0 ≤ DOS.getD i 0)
      (scattering_state_reduce N cutoff DOS) ∧
    (0 < cutoff → ∀ i, (i ∈ scattering_state_reduce N cutoff DOS ↔
        i ∈ (argsortDesc DOS).take N ∧ cutoff ≤ |DOS.getD i 0|)) ∧
    (¬ 0 < cutoff → scattering_state_reduce N cutoff DOS = (argsortDesc DOS).take N) := by
  haveI htot : IsTotal ℕ (fun i j => DOS.getD j 0 ≤ DOS.getD i 0) :=
    ⟨fun a b => (le_total (DOS.getD a 0) (DOS.getD b 0)).symm⟩
  haveI htrans : IsTrans ℕ (fun i j => DOS.getD j 0 ≤ DOS.getD i 0) :=
    ⟨fun _ _ _ hab hbc => le_trans hbc hab⟩
  have hperm : List.Perm (argsortDesc DOS) (List.range DOS.length) :=
    List.perm_insertionSort _ _
  have hsorted : List.Sorted (fun i j => DOS.getD j 0 ≤ DOS.getD i 0) (argsortDesc DOS) :=
    List.sorted_insertionSort _ _
  have hlen : (argsortDesc DOS).length = DOS.length := by
    rw [hperm.length_eq, List.length_range]
  have hmem : ∀ i ∈ argsortDesc DOS, i < DOS.length := by
    intro i hi
    have := hperm.mem_iff.mp hi
    simpa using this
  refine ⟨?_, ?_, ?_, ?_, ?_, ?_⟩
  · rw [List.length_take, hlen]
  · intro i hi
    exact hmem i (List.mem_of_mem_take hi)
  · intro i hi j hj hjn
    have hsplit : argsortDesc DOS = (argsortDesc DOS).take N ++ (argsortDesc DOS).drop N :=
      (List.take_append_drop N _).symm
    have hpw := hsorted
    rw [List.Sorted, hsplit, List.pairwise_append] at hpw
    have hjmem : j ∈ argsortDesc DOS := by
      rw [hperm.mem_iff]
      simpa using hj
    have hjdrop : j ∈ (argsortDesc DOS).drop N := by
      rw [hsplit, List.mem_append] at hjmem
      exact hjmem.resolve_left hjn
    exact hpw.2.2 i hi j hjdrop
  · have htake : List.Sorted (fun i j => DOS.getD j 0 ≤ DOS.getD i 0)
        ((argsortDesc DOS).take N) :=
      List.Pairwise.sublist (List.take_sublist N _) hsorted
    unfold scattering_state_reduce
    by_cases hc : 0 < cutoff
    · rw [if_pos hc]
      exact htake.filter _
    · rw [if_neg hc]
      exact htake
  · intro hc i
    simp [scattering_state_reduce, hc, List.mem_filter]
  · intro hc
    simp [scattering_state_reduce, hc]

/-- Witness for `scattering_state_reduce_spec` at a concrete DOS vector. -/
theorem scattering_state_reduce_spec_witness :
    (0 : ℚ) < 1/2 ∧
    (3 ∈ scattering_state_reduce 3 ((1 : ℚ)/2) dosExample ↔
      3 ∈ (argsortDesc dosExample).take 3 ∧ (1 : ℚ)/2 ≤ |dosExample.getD 3 0|) :=
  ⟨by norm_num, (scattering_state_reduce_spec 3 ((1 : ℚ)/2) dosExample).2.2.2.2.1 (by norm_num) 3⟩

/-- `minv` is the `Invertible` inverse whenever one exists. -/
theorem minv_eq_invOf {n : Type} [Fintype n] [DecidableEq n] (A : Matrix n n K)
    [Invertible A] : minv A = ⅟A := by
  rw [minv_eq_inv, Matrix.invOf_eq_nonsing_inv]

/-- Generic form of `chainRow_mul_mul_chainCol` over an abstract leading
index type. -/
theorem border_sandwich {p : Type} [Fintype p] (L U : Tile K m)
    (X : Matrix (p ⊕ Fin m) (p ⊕ Fin m) K) :
    (Matrix.of fun (i : Fin m) (j : p ⊕ Fin m) =>
        Sum.elim (fun _ => 0) (fun j2 => L i j2) j) * X *
      (Matrix.of fun (i : p ⊕ Fin m) (j : Fin m) =>
        Sum.elim (fun _ => 0) (fun i2 => U i2 j) i)
      = L * (Matrix.of fun i j => X (Sum.inr i) (Sum.inr j)) * U := by
  ext i j
  simp only [Matrix.mul_apply, Matrix.of_apply]
  rw [Fintype.sum_sum_type]
  simp only [Sum.elim_inl, Sum.elim_inr, mul_zero, zero_mul, Finset.sum_const_zero,
    zero_add, add_zero]
  refine Finset.sum_congr rfl fun x _ => ?_
  rw [Fintype.sum_sum_type]
  simp [Finset.sum_mul]

theorem chainRow_mul_mul_chainCol (Ml Mu : ℕ → Tile K m) (n : ℕ)
    (X : Matrix (Idx m n) (Idx m n) K) :
    chainRow Ml n * X * chainCol Mu n = Ml n * corner n X * Mu n := by
  cases n with
  | zero => rfl
  | succ n =>
    rw [chainRow, chainCol, corner]
    exact border_sandwich (Ml (n + 1)) (Mu (n + 1)) X

/-- The last diagonal tile of the inverse of a bordered block matrix is the
inverse of the Schur complement. -/
theorem invOf_fromBlocks_apply22 {p : Type} [Fintype p] [DecidableEq p]
    (Ab : Matrix p p K) (Bb : Matrix p (Fin m) K) (Cb : Matrix (Fin m) p K) (Db : Tile K m)
    [Invertible Ab] [Invertible (Db - Cb * ⅟Ab * Bb)]
    [Invertible (Matrix.fromBlocks Ab Bb Cb Db)] (i j : Fin m) :
    (⅟(Matrix.fromBlocks Ab Bb Cb Db)) (Sum.inr i) (Sum.inr j)
      = (⅟(Db - Cb * ⅟Ab * Bb)) i j := by
  rw [Matrix.invOf_fromBlocks₁₁_eq, Matrix.fromBlocks_apply₂₂]

/-- By induction along the chain: the leading principal part is invertible
whenever every reduced diagonal `M[b,b] − Mr` of the loop is, and the last
diagonal tile of its inverse is the inverse of the current reduced
diagonal. -/
theorem Achain_isUnit_corner (Md Ml Mu : ℕ → Tile K m) (σ0 : Tile K m) :
    ∀ n, (∀ b, b ≤ n → IsUnit (dred Md Ml Mu σ0 b)) →
      IsUnit (Achain Md Ml Mu σ0 n) ∧
      corner n (minv (Achain Md Ml Mu σ0 n)) = minv (dred Md Ml Mu σ0 n) := by
  intro n
  induction n with
  | zero =>
    intro h
    have h0 : dred Md Ml Mu σ0 0 = Achain Md Ml Mu σ0 0 := by
      simp [dred, downfoldIter, Achain]
    constructor
    · rw [← h0]
      exact h 0 le_rfl
    · show minv (Achain Md Ml Mu σ0 0) = minv (dred Md Ml Mu σ0 0)
      rw [h0]
  | succ n ih =>
    intro h
    obtain ⟨hAu, hcorner⟩ := ih (fun b hb => h b (Nat.le_succ_of_le hb))
    letI iA : Invertible (Achain Md Ml Mu σ0 n) := hAu.invertible
    have hschur : Mdσ Md σ0 (n + 1)
          - chainRow Ml n * ⅟(Achain Md Ml Mu σ0 n) * chainCol Mu n
        = dred Md Ml Mu σ0 (n + 1) := by
      rw [← minv_eq_invOf, chainRow_mul_mul_chainCol, hcorner]
      show _ = Mdσ Md σ0 (n + 1) - downfoldIter Md Ml Mu σ0 (n + 1)
      rw [downfoldIter]
      unfold solve
      rw [mul_assoc]
      rfl
    letI iS : Invertible (dred Md Ml Mu σ0 (n + 1)) := (h (n + 1) le_rfl).invertible
    letI iS2 : Invertible (Mdσ Md σ0 (n + 1)
        - chainRow Ml n * ⅟(Achain Md Ml Mu σ0 n) * chainCol Mu n) := iS.copy _ hschur
    letI iF : Invertible (Matrix.fromBlocks (Achain Md Ml Mu σ0 n) (chainCol Mu n)
        (chainRow Ml n) (Mdσ Md σ0 (n + 1))) := Matrix.fromBlocks₁₁Invertible _ _ _ _
    have hAeq : Achain Md Ml Mu σ0 (n + 1)
        = Matrix.fromBlocks (Achain Md Ml Mu σ0 n) (chainCol Mu n) (chainRow Ml n)
            (Mdσ Md σ0 (n + 1)) := by
      rw [Achain]
    constructor
    · rw [hAeq]
      exact isUnit_of_invertible _
    · ext i j
      show minv (Achain Md Ml Mu σ0 (n + 1)) (Sum.inr i) (Sum.inr j)
          = minv (dred Md Ml Mu σ0 (n + 1)) i j
      rw [minv_eq_inv, minv_eq_inv, hAeq]
      have h1 : (Matrix.fromBlocks (Achain Md Ml Mu σ0 n) (chainCol Mu n) (chainRow Ml n)
            (Mdσ Md σ0 (n + 1)))⁻¹
          = ⅟(Matrix.fromBlocks (Achain Md Ml Mu σ0 n) (chainCol Mu n) (chainRow Ml n)
            (Mdσ Md σ0 (n + 1))) := (Matrix.invOf_eq_nonsing_inv _).symm
      rw [h1, invOf_fromBlocks_apply22]
      have h2 : (⅟(Mdσ Md σ0 (n + 1)
            - chainRow Ml n * ⅟(Achain Md Ml Mu σ0 n) * chainCol Mu n) : Tile K m)
          = (dred Md Ml Mu σ0 (n + 1))⁻¹ :=
        (Matrix.invOf_eq_nonsing_inv _).trans (by rw [hschur])
      rw [h2]

/-- **C1** (amended): the value returned by `DownfoldSelfEnergy.self_energy`
is the matrix produced by the stated iteration (`downfoldIter … (B-1)`), and
— whenever every reduced diagonal the loop inverts is nonsingular — it
equals the device-adjacent diagonal tile of `E·S − H` **minus** the Schur
complement of `(E·S − H − Σ₀)` restricted to the device-adjacent block
(equivalently, that Schur complement equals `M[B-1,B-1] −` the returned
`Σ'`), for a chain of `B = n + 2` blocks. -/
theorem downfold_eq_diag_sub_schur (Md Ml Mu : ℕ → Tile K m) (σ0 : Tile K m) (n : ℕ)
    (h : ∀ b, b ≤ n → (dred Md Ml Mu σ0 b).det ≠ 0) :
    downfoldIter Md Ml Mu σ0 (n + 1)
      = Mdσ Md σ0 (n + 1) - schurLast Md Ml Mu σ0 n := by
  have h' : ∀ b, b ≤ n → IsUnit (dred Md Ml Mu σ0 b) := fun b hb =>
    (Matrix.isUnit_iff_isUnit_det _).mpr (isUnit_iff_ne_zero.mpr (h b hb))
  obtain ⟨hAu, hcorner⟩ := Achain_isUnit_corner Md Ml Mu σ0 n h'
  unfold schurLast
  rw [chainRow_mul_mul_chainCol, hcorner, sub_sub_cancel, downfoldIter]
  unfold solve
  rw [mul_assoc]
  rfl

/-- **C1** (counterexample): for the 2-block scalar chain with
`M[0,0] = 2`, `M[1,1] = 5`, couplings `1` and `Σ₀ = 1`, the loop returns
`1·(2−1)⁻¹·1 = 1`, while the Schur complement of `E·S − H − Σ₀` restricted
to the device-adjacent block is `5 − 1·(2−1)⁻¹·1 = 4`; the claim that the
returned matrix *equals* that Schur complement is false. -/
theorem downfold_ne_schur :
    downfoldIter exMd exOne exOne exSigma 1 ≠ schurLast exMd exOne exOne exSigma 0 := by
  have hMdσ0 : Mdσ exMd exSigma 0 = 1 := by
    ext i j
    fin_cases i
    fin_cases j
    simp [Mdσ, exMd, exSigma]
    norm_num
  have hdf : downfoldIter exMd exOne exOne exSigma 1 = Matrix.of (fun _ _ => (1 : ℚ)) := by
    rw [downfoldIter]
    unfold solve
    rw [downfoldIter, sub_zero, hMdσ0, minv_eq_inv, inv_one, one_mul]
    ext i j
    fin_cases i
    fin_cases j
    simp [exOne, Matrix.mul_apply]
  have hsch : schurLast exMd exOne exOne exSigma 0 = Matrix.of (fun _ _ => (4 : ℚ)) := by
    unfold schurLast
    have hA : Achain exMd exOne exOne exSigma 0 = 1 := by
      rw [Achain]
      exact hMdσ0
    rw [hA, minv_eq_inv, inv_one]
    ext i j
    fin_cases i
    fin_cases j
    simp [Mdσ, exMd, exOne, chainRow, chainCol, Matrix.mul_apply]
    norm_num
  rw [hdf, hsch]
  intro hcontra
  have := congrFun (congrFun hcontra 0) 0
  norm_num at this

/-- Witness for `downfold_eq_diag_sub_schur` at the concrete 2-block
chain. -/
theorem downfold_eq_diag_sub_schur_witness :
    (∀ b, b ≤ 0 → (dred exMd exOne exOne exSigma b).det ≠ 0) ∧
    downfoldIter exMd exOne exOne exSigma 1
      = Mdσ exMd exSigma 1 - schurLast exMd exOne exOne exSigma 0 := by
  have hdet : ∀ b, b ≤ 0 → (dred exMd exOne exOne exSigma b).det ≠ 0 := by
    intro b hb
    interval_cases b
    rw [show dred exMd exOne exOne exSigma 0 = Mdσ exMd exSigma 0 from by
      simp [dred, downfoldIter]]
    rw [Matrix.det_fin_one]
    simp [Mdσ, exMd, exSigma]
    norm_num
  exact ⟨hdet, downfold_eq_diag_sub_schur exMd exOne exOne exSigma 0 hdet⟩

/-- **C3**: the dense `green(format='array')` result and the dense
materialization `green(format='btd').toarray()` agree on every block
`(i, j)` of the block-tridiagonal pattern `|i−j| ≤ 1` (entries outside that
pattern are filled by `array` but zero in the materialized `btd`). -/
theorem green_btd_toarray_eq_green_array (A B C tX tY : ℕ → Tile K m) (nbm1 : ℕ)
    (i j : ℕ) (hi : i ≤ nbm1) (hj : j ≤ nbm1) (h1 : i ≤ j + 1) (h2 : j ≤ i + 1) :
    toarrayBlk (green_btd A B C tX tY nbm1) i j = green_array A B C tX tY nbm1 i j := by
  rcases Nat.lt_trichotomy i j with hlt | heq | hgt
  · have hij : j = i + 1 := by omega
    subst hij
    unfold toarrayBlk green_btd green_array
    rw [if_pos hj, if_neg (by omega), if_pos rfl, Option.getD_some, if_pos (by omega),
      show i + 1 - i = 1 from by omega]
    simp [gUp]
  · subst heq
    unfold toarrayBlk green_btd green_array
    rw [if_pos hj, if_pos rfl, Option.getD_some, if_neg (by omega),
      show i - i = 0 from by omega, gDn]
  · have hij : i = j + 1 := by omega
    subst hij
    unfold toarrayBlk green_btd green_array
    rw [if_pos hj, if_neg (by omega), if_neg (by omega), if_pos ⟨rfl, by omega⟩,
      Option.getD_some, if_neg (by omega), show j + 1 - j = 1 from by omega]
    simp [gDn]

/-- Witness for `green_btd_toarray_eq_green_array` on a sub-diagonal block
of a concrete 3-block configuration. -/
theorem green_btd_toarray_eq_green_array_witness :
    (1 : ℕ) ≤ 2 ∧ (0 : ℕ) ≤ 2 ∧ (1 : ℕ) ≤ 0 + 1 ∧ (0 : ℕ) ≤ 1 + 1 ∧
    toarrayBlk (green_btd oneTiles oneTiles oneTiles oneTiles oneTiles 2) 1 0
      = green_array oneTiles oneTiles oneTiles oneTiles oneTiles 2 1 0 :=
  ⟨by omega, by omega, by omega, by omega,
   green_btd_toarray_eq_green_array oneTiles oneTiles oneTiles oneTiles oneTiles 2 1 0
     (by omega) (by omega) (by omega) (by omega)⟩

/-- Effect of `below(i, j)`: under the validity of the downward spectral
recurrence at rows `≥ hi` and Hermitian symmetry of the target values,
given that the mirror cells `(j, c)` for `i < c < j` and (when the first
step is a `below_calc`) the start cell `(i, j)` already hold their target
values, `below` fills exactly the cells `(a, j)` for `i < a ≤ nbm1` with
the target values and leaves everything else unchanged. -/
theorem belowS_eq (tX : ℕ → Tile K m) (nbm1 : ℕ) (Spec : ℕ → ℕ → Tile K m) (hi : ℕ)
    (hXv : ∀ a b, hi ≤ a → Spec (a + 1) b = -(tX a * Spec a b))
    (hherm : ∀ a b, Spec b a = dagger (Spec a b)) :
    ∀ k i j S, nbm1 - i = k → hi ≤ i →
      (∀ c, i < c → c < j → S j c = some (Spec j c)) →
      (j ≤ i + 1 → S i j = some (Spec i j)) →
      belowS tX nbm1 i j S
        = fun a b => if b = j ∧ i < a ∧ a ≤ nbm1 then some (Spec a b) else S a b := by
  intro k
  induction k with
  | zero =>
    intro i j S hk hhi hmir hstart
    rw [belowS, dif_pos (by omega)]
    funext a b
    rw [if_neg (by omega)]
  | succ k ihk =>
    intro i j S hk hhi hmir hstart
    rw [belowS, dif_neg (by omega)]
    have hwrite : (if j ≤ i + 1 then updS S (i + 1) j (-(tX i * getS S i j))
        else updS S (i + 1) j (dagger (getS S j (i + 1))))
        = updS S (i + 1) j (Spec (i + 1) j) := by
      by_cases hcase : j ≤ i + 1
      · rw [if_pos hcase,
          show getS S i j = Spec i j from by rw [getS, hstart hcase, Option.getD_some],
          ← hXv i j hhi]
      · rw [if_neg hcase,
          show getS S j (i + 1) = Spec j (i + 1) from by
            rw [getS, hmir (i + 1) (by omega) (by omega), Option.getD_some],
          ← hherm]
    rw [hwrite]
    have hmir2 : ∀ c, i + 1 < c → c < j →
        updS S (i + 1) j (Spec (i + 1) j) j c = some (Spec j c) := by
      intro c hc1 hc2
      unfold updS
      rw [if_neg (by omega)]
      exact hmir c (by omega) hc2
    have hstart2 : j ≤ i + 1 + 1 →
        updS S (i + 1) j (Spec (i + 1) j) (i + 1) j = some (Spec (i + 1) j) := by
      intro _
      unfold updS
      rw [if_pos ⟨rfl, rfl⟩]
    rw [ihk (i + 1) j _ (by omega) (by omega) hmir2 hstart2]
    funext a b
    unfold updS
    by_cases hcond : b = j ∧ i < a ∧ a ≤ nbm1
    · rw [if_pos hcond]
      by_cases hcond2 : b = j ∧ i + 1 < a ∧ a ≤ nbm1
      · rw [if_pos hcond2]
      · rw [if_neg hcond2, if_pos (show a = i + 1 ∧ b = j from by omega)]
        have ha : a = i + 1 := by omega
        rw [ha, hcond.1]
    · rw [if_neg hcond, if_neg (by omega), if_neg (by omega)]

/-- Effect of `above(i, j)`: under the validity of the upward spectral
recurrence at rows `≤ lo` and Hermitian symmetry, given the mirror cells
`(j, c)` for `c < min i j` and (when the first step is an `above_calc`)
the start cell `(i, j)`, `above` fills exactly the cells `(a, j)` for
`a < i` and leaves everything else unchanged. -/
theorem aboveS_eq (tY : ℕ → Tile K m) (Spec : ℕ → ℕ → Tile K m) (lo : ℕ)
    (hYv : ∀ a b, a + 1 ≤ lo → Spec a b = -(tY (a + 1) * Spec (a + 1) b))
    (hherm : ∀ a b, Spec b a = dagger (Spec a b)) :
    ∀ i j S, i ≤ lo →
      (∀ c, c < i → c < j → S j c = some (Spec j c)) →
      (j < i → S i j = some (Spec i j)) →
      aboveS tY i j S
        = fun a b => if b = j ∧ a < i then some (Spec a b) else S a b := by
  intro i
  induction i with
  | zero =>
    intro j S _ _ _
    rw [aboveS]
    funext a b
    rw [if_neg (by omega)]
  | succ i ihi =>
    intro j S hlo hmir hstart
    rw [aboveS]
    have hwrite : (if j ≤ i then updS S i j (-(tY (i + 1) * getS S (i + 1) j))
        else updS S i j (dagger (getS S j i)))
        = updS S i j (Spec i j) := by
      by_cases hcase : j ≤ i
      · rw [if_pos hcase,
          show getS S (i + 1) j = Spec (i + 1) j from by
            rw [getS, hstart (by omega), Option.getD_some],
          ← hYv i j (by omega)]
      · rw [if_neg hcase,
          show getS S j i = Spec j i from by
            rw [getS, hmir i (by omega) (by omega), Option.getD_some],
          ← hherm]
    rw [hwrite]
    have hmir2 : ∀ c, c < i → c < j → updS S i j (Spec i j) j c = some (Spec j c) := by
      intro c hc1 hc2
      unfold updS
      rw [if_neg (by omega)]
      exact hmir c (by omega) hc2
    have hstart2 : j < i → updS S i j (Spec i j) i j = some (Spec i j) := by
      intro _
      unfold updS
      rw [if_pos ⟨rfl, rfl⟩]
    rw [ihi j _ (by omega) hmir2 hstart2]
    funext a b
    unfold updS
    by_cases hcond : b = j ∧ a < i + 1
    · rw [if_pos hcond]
      by_cases hcond2 : b = j ∧ a < i
      · rw [if_pos hcond2]
      · rw [if_neg hcond2, if_pos (show a = i ∧ b = j from by omega)]
        have ha : a = i := by omega
        rw [ha, hcond.1]
    · rw [if_neg hcond, if_neg (by omega), if_neg (by omega)]

/-- Writing the target value into a cell, in override form. -/
theorem updS_spec (S : SpecState K m) (Spec : ℕ → ℕ → Tile K m) (i j : ℕ) :
    updS S i j (Spec i j)
      = fun a b => if a = i ∧ b = j then some (Spec a b) else S a b := by
  funext a b
  unfold updS
  by_cases h : a = i ∧ b = j
  · rw [if_pos h, if_pos h, h.1, h.2]
  · rw [if_neg h, if_neg h]

/-- Effect of `if b: below(i, j)` in override form (see `belowS_eq`). -/
theorem flagBelow_eq (tX : ℕ → Tile K m) (nbm1 : ℕ) (Spec : ℕ → ℕ → Tile K m) (hi : ℕ)
    (hXv : ∀ a b, hi ≤ a → Spec (a + 1) b = -(tX a * Spec a b))
    (hherm : ∀ a b, Spec b a = dagger (Spec a b))
    (fb : Bool) (i j : ℕ) (S : SpecState K m)
    (hhi : fb = true → hi ≤ i)
    (hmir : fb = true → ∀ c, i < c → c < j → S j c = some (Spec j c))
    (hstart : fb = true → j ≤ i + 1 → S i j = some (Spec i j)) :
    flagBelow tX nbm1 fb i j S
      = fun a b => if fb = true ∧ b = j ∧ i < a ∧ a ≤ nbm1
                   then some (Spec a b) else S a b := by
  cases fb
  · unfold flagBelow
    rw [if_neg (by simp)]
    funext a b
    rw [if_neg (by simp)]
  · unfold flagBelow
    rw [if_pos rfl,
      belowS_eq tX nbm1 Spec hi hXv hherm (nbm1 - i) i j S rfl (hhi rfl) (hmir rfl) (hstart rfl)]
    funext a b
    by_cases h : b = j ∧ i < a ∧ a ≤ nbm1
    · rw [if_pos h, if_pos ⟨rfl, h⟩]
    · rw [if_neg h, if_neg (fun hc => h hc.2)]

/-- Effect of `if a: above(i, j)` in override form (see `aboveS_eq`). -/
theorem flagAbove_eq (tY : ℕ → Tile K m) (Spec : ℕ → ℕ → Tile K m) (lo : ℕ)
    (hYv : ∀ a b, a + 1 ≤ lo → Spec a b = -(tY (a + 1) * Spec (a + 1) b))
    (hherm : ∀ a b, Spec b a = dagger (Spec a b))
    (fa : Bool) (i j : ℕ) (S : SpecState K m)
    (hlo : fa = true → i ≤ lo)
    (hmir : fa = true → ∀ c, c < i → c < j → S j c = some (Spec j c))
    (hstart : fa = true → j < i → S i j = some (Spec i j)) :
    flagAbove tY fa i j S
      = fun a b => if fa = true ∧ b = j ∧ a < i then some (Spec a b) else S a b := by
  cases fa
  · unfold flagAbove
    rw [if_neg (by simp)]
    funext a b
    rw [if_neg (by simp)]
  · unfold flagAbove
    rw [if_pos rfl,
      aboveS_eq tY Spec lo hYv hherm i j S (hlo rfl) (hmir rfl) (hstart rfl)]
    funext a b
    by_cases h : b = j ∧ a < i
    · rw [if_pos h, if_pos ⟨rfl, h⟩]
    · rw [if_neg h, if_neg (fun hc => h hc.2)]

/-- Effect of `left(i, j, a, b)`: starting from a correct cell `(i, j)` in
the valid region (`j ≤ lo ≤ i + 1`, flags pinned to the electrode block
bounds), `left` fills row `i` of every column `c < j`, plus the rows below
`i` (flag `b`) and above `i` (flag `a`) of those columns, with the target
values, and leaves everything else unchanged. -/
theorem leftS_eq (tX tY : ℕ → Tile K m) (nbm1 : ℕ) (Spec : ℕ → ℕ → Tile K m) (lo hi : ℕ)
    (hXv : ∀ a b, hi ≤ a → Spec (a + 1) b = -(tX a * Spec a b))
    (hYv : ∀ a b, a + 1 ≤ lo → Spec a b = -(tY (a + 1) * Spec (a + 1) b))
    (hLv : ∀ a c, c + 1 ≤ lo → Spec a c = -(Spec a (c + 1) * dagger (tY (c + 1))))
    (hherm : ∀ a b, Spec b a = dagger (Spec a b)) :
    ∀ j i fa fb S, j ≤ lo → j ≤ i + 1 →
      (fa = true → i = lo) → (fb = true → i = hi) →
      S i j = some (Spec i j) →
      leftS tX tY nbm1 i fa fb j S
        = fun a b =>
            if b < j ∧ (a = i ∨ (fb = true ∧ i < a ∧ a ≤ nbm1) ∨ (fa = true ∧ a < i))
            then some (Spec a b) else S a b := by
  intro j
  induction j with
  | zero =>
    intro i fa fb S _ _ _ _ _
    rw [leftS]
    funext a b
    rw [if_neg (fun hc => absurd hc.1 (by omega))]
  | succ j ihj =>
    intro i fa fb S hjlo hji hfa hfb hstart
    rw [leftS, if_pos (show j ≤ i from by omega),
      show getS S i (j + 1) = Spec i (j + 1) from by rw [getS, hstart, Option.getD_some],
      show -(Spec i (j + 1) * dagger (tY (j + 1))) = Spec i j from (hLv i j (by omega)).symm,
      updS_spec]
    rw [ihj i fa fb _ (by omega) (by omega) hfa hfb (by rw [if_pos ⟨rfl, rfl⟩])]
    rw [flagBelow_eq tX nbm1 Spec hi hXv hherm fb i j _
      (fun h => le_of_eq (hfb h).symm)
      (fun _ c h1 h2 => absurd (h1.trans h2) (by omega))
      (fun _ _ => by
        rw [if_neg (fun hc => absurd hc.1 (by omega)), if_pos ⟨rfl, rfl⟩])]
    rw [flagAbove_eq tY Spec lo hYv hherm fa i j _
      (fun h => le_of_eq (hfa h))
      (fun hfa2 c h1 h2 => by
        rw [if_neg (fun hc => absurd hc.2.2.1 (by omega))]
        have hrow : j = i ∨ (fb = true ∧ i < j ∧ j ≤ nbm1) ∨ (fa = true ∧ j < i) := by
          rcases Nat.eq_or_lt_of_le (show j ≤ i from by omega) with h3 | h3
          · exact Or.inl h3
          · exact Or.inr (Or.inr ⟨hfa2, h3⟩)
        rw [if_pos ⟨h2, hrow⟩])
      (fun _ _ => by
        rw [if_neg (fun hc => absurd hc.2.2.1 (by omega)),
          if_neg (fun hc => absurd hc.1 (by omega)), if_pos ⟨rfl, rfl⟩])]
    funext a b
    by_cases hfa3 : fa = true <;> by_cases hfb3 : fb = true <;>
      simp only [hfa3, hfb3, Bool.false_eq_true, eq_self_iff_true, true_and, and_true,
        false_and, and_false, false_or, or_false, if_false] <;>
      split_ifs <;> first | rfl | (exfalso; omega)

/-- Effect of `right(i, j, a, b)`: starting at a column `j ≥ hi ≥ i` whose
left part (columns `≤ j`, the rows already populated by `left`/`below`)
holds the target values, `right` fills row `i` of every column
`j < c ≤ nbm1` by Hermitian copies from the already-filled region, plus the
rows above `i` (flag `a`) and below `i` (flag `b`) of those columns, and
leaves everything else unchanged. -/
theorem rightS_eq (tX tY : ℕ → Tile K m) (nbm1 : ℕ) (Spec : ℕ → ℕ → Tile K m) (lo hi : ℕ)
    (hXv : ∀ a b, hi ≤ a → Spec (a + 1) b = -(tX a * Spec a b))
    (hYv : ∀ a b, a + 1 ≤ lo → Spec a b = -(tY (a + 1) * Spec (a + 1) b))
    (hherm : ∀ a b, Spec b a = dagger (Spec a b)) :
    ∀ k j i fa fb S, nbm1 - j = k → i ≤ j →
      (fa = true → i = lo) → (fb = true → i = hi) →
      (∀ c, j < c → c ≤ nbm1 → S c i = some (Spec c i)) →
      (fa = true → ∀ c x, j < c → c ≤ nbm1 → x < i → S c x = some (Spec c x)) →
      (fb = true → ∀ c x, j < c → c ≤ nbm1 → i < x → x ≤ j → S c x = some (Spec c x)) →
      rightS tX tY nbm1 i fa fb j S
        = fun a b =>
            if j < b ∧ b ≤ nbm1 ∧
               (a = i ∨ (fa = true ∧ a < i) ∨ (fb = true ∧ i < a ∧ a ≤ nbm1))
            then some (Spec a b) else S a b := by
  intro k
  induction k with
  | zero =>
    intro j i fa fb S hk hij hfa hfb hP hPa hPb
    rw [rightS, dif_pos (by omega)]
    funext a b
    rw [if_neg (fun hc => absurd (And.intro hc.1 hc.2.1) (by omega))]
  | succ k ihk =>
    intro j i fa fb S hk hij hfa hfb hP hPa hPb
    rw [rightS, dif_neg (by omega), if_neg (by omega),
      show getS S (j + 1) i = Spec (j + 1) i from by
        rw [getS, hP (j + 1) (by omega) (by omega), Option.getD_some],
      show dagger (Spec (j + 1) i) = Spec i (j + 1) from (hherm (j + 1) i).symm,
      updS_spec]
    rw [flagAbove_eq tY Spec lo hYv hherm fa i (j + 1) _
      (fun h => le_of_eq (hfa h))
      (fun h c h1 h2 => by
        rw [if_neg (fun hc => absurd hc.1 (by omega))]
        exact hPa h (j + 1) c (by omega) (by omega) h1)
      (fun _ h2 => absurd h2 (by omega))]
    rw [flagBelow_eq tX nbm1 Spec hi hXv hherm fb i (j + 1) _
      (fun h => le_of_eq (hfb h).symm)
      (fun h c h1 h2 => by
        rw [if_neg (fun hc => absurd hc.2.2 (by omega)),
          if_neg (fun hc => absurd hc.1 (by omega))]
        exact hPb h (j + 1) c (by omega) (by omega) h1 (by omega))
      (fun _ _ => by
        rw [if_neg (fun hc => absurd hc.2.2 (by omega)), if_pos ⟨rfl, rfl⟩])]
    rw [ihk (j + 1) i fa fb _ (by omega) (by omega) hfa hfb
      (fun c h1 h2 => by
        rw [if_neg (fun hc => absurd hc.2.1 (by omega)),
          if_neg (fun hc => absurd hc.2.1 (by omega)),
          if_neg (fun hc => absurd hc.2 (by omega))]
        exact hP c (by omega) h2)
      (fun h c x h1 h2 h3 => by
        rw [if_neg (fun hc => absurd hc.2.1 (by omega)),
          if_neg (fun hc => absurd hc.2.1 (by omega)),
          if_neg (fun hc => absurd hc.2 (by omega))]
        exact hPa h c x (by omega) h2 h3)
      (fun h c x h1 h2 h3 h4 => by
        by_cases hx : x = j + 1
        · rw [if_pos ⟨h, hx, by omega, h2⟩]
        · rw [if_neg (fun hc => absurd hc.2.1 hx),
            if_neg (fun hc => absurd hc.2.1 hx),
            if_neg (fun hc => absurd hc.2 hx)]
          exact hPb h c x (by omega) h2 h3 (by omega))]
    funext a b
    by_cases hfa3 : fa = true <;> by_cases hfb3 : fb = true <;>
      simp only [hfa3, hfb3, Bool.false_eq_true, eq_self_iff_true, true_and, and_true,
        false_and, and_false, false_or, or_false, if_false] <;>
      split_ifs <;> first | rfl | (exfalso; omega)

/-- Downward recurrence of the single-block electrode Green column: below
the electrode block the column propagates by `−tX`. -/
theorem green_column_succ_below (A B C tX tY : ℕ → Tile K m) {q : ℕ} (g : Fin q → Fin m)
    (nbm1 eb a : ℕ) (ha : eb ≤ a) :
    green_column A B C tX tY g nbm1 eb (a + 1)
      = -(tX a * green_column A B C tX tY g nbm1 eb a) := by
  unfold green_column
  rw [if_neg (by omega), if_neg (by omega),
    show a + 1 - eb = (a - eb) + 1 from by omega, dnProp,
    show eb + (a - eb) = a from by omega]

/-- Upward recurrence of the single-block electrode Green column: above
the electrode block the column propagates by `−tY`. -/
theorem green_column_pred_above (A B C tX tY : ℕ → Tile K m) {q : ℕ} (g : Fin q → Fin m)
    (nbm1 eb a : ℕ) (ha : a + 1 ≤ eb) :
    green_column A B C tX tY g nbm1 eb a
      = -(tY (a + 1) * green_column A B C tX tY g nbm1 eb (a + 1)) := by
  unfold green_column
  rw [if_pos (show a < eb from by omega),
    show eb - a = (eb - (a + 1)) + 1 from by omega, upProp,
    show eb - (eb - (a + 1)) = a + 1 from by omega]
  by_cases h : a + 1 < eb
  · rw [if_pos h]
  · rw [if_neg h, show eb - (a + 1) = 0 from by omega,
      show a + 1 - eb = 0 from by omega, upProp, dnProp]

/-- Downward recurrence of the two-block electrode Green column: below the
lower electrode block `e0+1` the column propagates by `−tX`. -/
theorem green_column2_succ_below (A B C tX tY : ℕ → Tile K m) {q0 q1 : ℕ}
    (g0 : Fin q0 → Fin m) (g1 : Fin q1 → Fin m) (nbm1 e0 a : ℕ) (ha : e0 + 1 ≤ a) :
    green_column2 A B C tX tY g0 g1 nbm1 e0 (a + 1)
      = -(tX a * green_column2 A B C tX tY g0 g1 nbm1 e0 a) := by
  unfold green_column2
  rw [if_neg (by omega), if_neg (by omega), if_neg (by omega), if_neg (by omega),
    show a + 1 - (e0 + 1) = (a - (e0 + 1)) + 1 from by omega, dnProp,
    show e0 + 1 + (a - (e0 + 1)) = a from by omega]

/-- Upward recurrence of the two-block electrode Green column: above the
upper electrode block `e0` the column propagates by `−tY`. -/
theorem green_column2_pred_above (A B C tX tY : ℕ → Tile K m) {q0 q1 : ℕ}
    (g0 : Fin q0 → Fin m) (g1 : Fin q1 → Fin m) (nbm1 e0 a : ℕ) (ha : a + 1 ≤ e0) :
    green_column2 A B C tX tY g0 g1 nbm1 e0 a
      = -(tY (a + 1) * green_column2 A B C tX tY g0 g1 nbm1 e0 (a + 1)) := by
  unfold green_column2
  rw [if_pos (show a < e0 from by omega),
    show e0 - a = (e0 - (a + 1)) + 1 from by omega, upProp,
    show e0 - (e0 - (a + 1)) = a + 1 from by omega]
  by_cases h : a + 1 < e0
  · rw [if_pos h]
  · rw [if_neg h, if_pos (show a + 1 = e0 from by omega),
      show e0 - (a + 1) = 0 from by omega, upProp]

/-- The single-block column-method spectral blocks satisfy the downward
(`below_calc`) recurrence of `_spectral_propagate`. -/
theorem spectral_column_below (A B C tX tY : ℕ → Tile K m) {q : ℕ} (g : Fin q → Fin m)
    (Gam : Matrix (Fin q) (Fin q) K) (nbm1 eb a b : ℕ) (ha : eb ≤ a) :
    spectral_column A B C tX tY g Gam nbm1 eb (a + 1) b
      = -(tX a * spectral_column A B C tX tY g Gam nbm1 eb a b) := by
  unfold spectral_column
  rw [green_column_succ_below A B C tX tY g nbm1 eb a ha]
  simp only [Matrix.neg_mul, Matrix.mul_assoc]

/-- The single-block column-method spectral blocks satisfy the upward
(`above_calc`) recurrence of `_spectral_propagate`. -/
theorem spectral_column_above (A B C tX tY : ℕ → Tile K m) {q : ℕ} (g : Fin q → Fin m)
    (Gam : Matrix (Fin q) (Fin q) K) (nbm1 eb a b : ℕ) (ha : a + 1 ≤ eb) :
    spectral_column A B C tX tY g Gam nbm1 eb a b
      = -(tY (a + 1) * spectral_column A B C tX tY g Gam nbm1 eb (a + 1) b) := by
  unfold spectral_column
  rw [green_column_pred_above A B C tX tY g nbm1 eb a ha]
  simp only [Matrix.neg_mul, Matrix.mul_assoc]

/-- The single-block column-method spectral blocks satisfy the leftward
(`left_calc`) recurrence of `_spectral_propagate`. -/
theorem spectral_column_left (A B C tX tY : ℕ → Tile K m) {q : ℕ} (g : Fin q → Fin m)
    (Gam : Matrix (Fin q) (Fin q) K) (nbm1 eb a c : ℕ) (hc : c + 1 ≤ eb) :
    spectral_column A B C tX tY g Gam nbm1 eb a c
      = -(spectral_column A B C tX tY g Gam nbm1 eb a (c + 1) * dagger (tY (c + 1))) := by
  unfold spectral_column
  rw [green_column_pred_above A B C tX tY g nbm1 eb c hc]
  simp only [dagger, Matrix.conjTranspose_neg, Matrix.conjTranspose_mul, Matrix.mul_neg,
    Matrix.neg_mul, Matrix.mul_assoc]

/-- For Hermitian broadening the single-block column-method spectral
matrix is Hermitian block-wise, justifying the `copy_herm` steps. -/
theorem spectral_column_herm (A B C tX tY : ℕ → Tile K m) {q : ℕ} (g : Fin q → Fin m)
    (Gam : Matrix (Fin q) (Fin q) K) (nbm1 eb : ℕ) (hG : Gam.conjTranspose = Gam) (a b : ℕ) :
    spectral_column A B C tX tY g Gam nbm1 eb b a
      = dagger (spectral_column A B C tX tY g Gam nbm1 eb a b) := by
  unfold spectral_column dagger
  rw [Matrix.conjTranspose_mul, Matrix.conjTranspose_mul,
    Matrix.conjTranspose_conjTranspose, hG, Matrix.mul_assoc]

/-- The two-block column-method spectral blocks satisfy the downward
(`below_calc`) recurrence of `_spectral_propagate`. -/
theorem spectral_column2_below (A B C tX tY : ℕ → Tile K m) {q0 q1 : ℕ}
    (g0 : Fin q0 → Fin m) (g1 : Fin q1 → Fin m)
    (Gam : Matrix (Fin q0 ⊕ Fin q1) (Fin q0 ⊕ Fin q1) K) (nbm1 e0 a b : ℕ)
    (ha : e0 + 1 ≤ a) :
    spectral_column2 A B C tX tY g0 g1 Gam nbm1 e0 (a + 1) b
      = -(tX a * spectral_column2 A B C tX tY g0 g1 Gam nbm1 e0 a b) := by
  unfold spectral_column2
  rw [green_column2_succ_below A B C tX tY g0 g1 nbm1 e0 a ha]
  simp only [Matrix.neg_mul, Matrix.mul_assoc]

/-- The two-block column-method spectral blocks satisfy the upward
(`above_calc`) recurrence of `_spectral_propagate`. -/
theorem spectral_column2_above (A B C tX tY : ℕ → Tile K m) {q0 q1 : ℕ}
    (g0 : Fin q0 → Fin m) (g1 : Fin q1 → Fin m)
    (Gam : Matrix (Fin q0 ⊕ Fin q1) (Fin q0 ⊕ Fin q1) K) (nbm1 e0 a b : ℕ)
    (ha : a + 1 ≤ e0) :
    spectral_column2 A B C tX tY g0 g1 Gam nbm1 e0 a b
      = -(tY (a + 1) * spectral_column2 A B C tX tY g0 g1 Gam nbm1 e0 (a + 1) b) := by
  unfold spectral_column2
  rw [green_column2_pred_above A B C tX tY g0 g1 nbm1 e0 a ha]
  simp only [Matrix.neg_mul, Matrix.mul_assoc]

/-- The two-block column-method spectral blocks satisfy the leftward
(`left_calc`) recurrence of `_spectral_propagate`. -/
theorem spectral_column2_left (A B C tX tY : ℕ → Tile K m) {q0 q1 : ℕ}
    (g0 : Fin q0 → Fin m) (g1 : Fin q1 → Fin m)
    (Gam : Matrix (Fin q0 ⊕ Fin q1) (Fin q0 ⊕ Fin q1) K) (nbm1 e0 a c : ℕ)
    (hc : c + 1 ≤ e0) :
    spectral_column2 A B C tX tY g0 g1 Gam nbm1 e0 a c
      = -(spectral_column2 A B C tX tY g0 g1 Gam nbm1 e0 a (c + 1) * dagger (tY (c + 1))) := by
  unfold spectral_column2
  rw [green_column2_pred_above A B C tX tY g0 g1 nbm1 e0 c hc]
  simp only [dagger, Matrix.conjTranspose_neg, Matrix.conjTranspose_mul, Matrix.mul_neg,
    Matrix.neg_mul, Matrix.mul_assoc]

/-- For Hermitian broadening the two-block column-method spectral matrix
is Hermitian block-wise. -/
theorem spectral_column2_herm (A B C tX tY : ℕ → Tile K m) {q0 q1 : ℕ}
    (g0 : Fin q0 → Fin m) (g1 : Fin q1 → Fin m)
    (Gam : Matrix (Fin q0 ⊕ Fin q1) (Fin q0 ⊕ Fin q1) K) (nbm1 e0 : ℕ)
    (hG : Gam.conjTranspose = Gam) (a b : ℕ) :
    spectral_column2 A B C tX tY g0 g1 Gam nbm1 e0 b a
      = dagger (spectral_column2 A B C tX tY g0 g1 Gam nbm1 e0 a b) := by
  unfold spectral_column2 dagger
  rw [Matrix.conjTranspose_mul, Matrix.conjTranspose_mul,
    Matrix.conjTranspose_conjTranspose, hG, Matrix.mul_assoc]

/-- Writing four target tiles in sequence into the empty state, in
override form. -/
theorem updS_spec4 (Spec : ℕ → ℕ → Tile K m) (r0 c0 r1 c1 r2 c2 r3 c3 : ℕ) :
    updS (updS (updS (updS (fun _ _ => none) r0 c0 (Spec r0 c0)) r1 c1 (Spec r1 c1))
        r2 c2 (Spec r2 c2)) r3 c3 (Spec r3 c3)
      = fun a b =>
          if a = r3 ∧ b = c3 then some (Spec a b)
          else if a = r2 ∧ b = c2 then some (Spec a b)
          else if a = r1 ∧ b = c1 then some (Spec a b)
          else if a = r0 ∧ b = c0 then some (Spec a b)
          else none := by
  funext a b
  unfold updS
  split_ifs with h1 h2 h3 h4
  · rw [h1.1, h1.2]
  · rw [h2.1, h2.2]
  · rw [h3.1, h3.2]
  · rw [h4.1, h4.2]
  · rfl

/-- Assembly of the single-block `_spectral_propagate` traversal
(`left(eb,eb,T,T); above; below; right(eb,eb,T,T)` from the seed
`S[eb,eb]`): any block family `Spec` that satisfies the four propagate
recurrences and Hermitian symmetry, and whose `(eb, eb)` value seeds the
state, fills every in-range block with its `Spec` value. -/
theorem spectral_assembly1 (tX tY : ℕ → Tile K m) (Spec : ℕ → ℕ → Tile K m) (nbm1 eb : ℕ)
    (hXv : ∀ a b, eb ≤ a → Spec (a + 1) b = -(tX a * Spec a b))
    (hYv : ∀ a b, a + 1 ≤ eb → Spec a b = -(tY (a + 1) * Spec (a + 1) b))
    (hLv : ∀ a c, c + 1 ≤ eb → Spec a c = -(Spec a (c + 1) * dagger (tY (c + 1))))
    (hherm : ∀ a b, Spec b a = dagger (Spec a b))
    (i j : ℕ) (hi : i ≤ nbm1) (hj : j ≤ nbm1) :
    rightS tX tY nbm1 eb true true eb
      (belowS tX nbm1 eb eb
        (aboveS tY eb eb
          (leftS tX tY nbm1 eb true true eb
            (updS (fun _ _ => none) eb eb (Spec eb eb))))) i j = some (Spec i j) := by
  rw [updS_spec (fun _ _ => none) Spec eb eb]
  rw [leftS_eq tX tY nbm1 Spec eb eb hXv hYv hLv hherm eb eb true true _ le_rfl (by omega)
    (fun _ => rfl) (fun _ => rfl)
    (by
      try dsimp only
      try simp only [Bool.false_eq_true, eq_self_iff_true, true_and, and_true, true_or,
        or_true, false_and, and_false, false_or, or_false, if_false, if_true]
      all_goals first | rfl | (split_ifs <;> first | rfl | (exfalso; omega)))]
  rw [aboveS_eq tY Spec eb hYv hherm eb eb _ le_rfl
    (fun c h1 h2 => by
      try dsimp only
      try simp only [Bool.false_eq_true, eq_self_iff_true, true_and, and_true, true_or,
        or_true, false_and, and_false, false_or, or_false, if_false, if_true]
      all_goals first | rfl | (split_ifs <;> first | rfl | (exfalso; omega)))
    (fun h => absurd h (lt_irrefl eb))]
  rw [belowS_eq tX nbm1 Spec eb hXv hherm (nbm1 - eb) eb eb _ rfl le_rfl
    (fun c h1 h2 => absurd (h1.trans h2) (by omega))
    (fun _ => by
      try dsimp only
      try simp only [Bool.false_eq_true, eq_self_iff_true, true_and, and_true, true_or,
        or_true, false_and, and_false, false_or, or_false, if_false, if_true]
      all_goals first | rfl | (split_ifs <;> first | rfl | (exfalso; omega)))]
  rw [rightS_eq tX tY nbm1 Spec eb eb hXv hYv hherm (nbm1 - eb) eb eb true true _ rfl
    le_rfl (fun _ => rfl) (fun _ => rfl)
    (fun c h1 h2 => by
      try dsimp only
      try simp only [Bool.false_eq_true, eq_self_iff_true, true_and, and_true, true_or,
        or_true, false_and, and_false, false_or, or_false, if_false, if_true]
      all_goals first | rfl | (split_ifs <;> first | rfl | (exfalso; omega)))
    (fun _ c x h1 h2 h3 => by
      try dsimp only
      try simp only [Bool.false_eq_true, eq_self_iff_true, true_and, and_true, true_or,
        or_true, false_and, and_false, false_or, or_false, if_false, if_true]
      all_goals first | rfl | (split_ifs <;> first | rfl | (exfalso; omega)))
    (fun _ c x h1 h2 h3 h4 => absurd (h3.trans_le h4) (by omega))]
  try dsimp only
  try simp only [Bool.false_eq_true, eq_self_iff_true, true_and, and_true, true_or,
    or_true, false_and, and_false, false_or, or_false, if_false, if_true]
  all_goals first | rfl | (split_ifs <;> first | rfl | (exfalso; omega))

set_option maxHeartbeats 8000000 in
/-- Assembly of the two-block `_spectral_propagate` traversal (the
source's else branch: `left(e1,e0,F,T); left(e0,e0,T,F); above(e0,e0);
above(e0,e1); below(e1,e0); below(e1,e1); right(e0,e1,T,F);
right(e1,e1,F,T)` from the four seeded tiles): any block family `Spec`
satisfying the propagate recurrences outside the two electrode rows and
Hermitian symmetry fills every in-range block with its `Spec` value. -/
theorem spectral_assembly2 (tX tY : ℕ → Tile K m) (Spec : ℕ → ℕ → Tile K m) (nbm1 e0 : ℕ)
    (hXv : ∀ a b, e0 + 1 ≤ a → Spec (a + 1) b = -(tX a * Spec a b))
    (hYv : ∀ a b, a + 1 ≤ e0 → Spec a b = -(tY (a + 1) * Spec (a + 1) b))
    (hLv : ∀ a c, c + 1 ≤ e0 → Spec a c = -(Spec a (c + 1) * dagger (tY (c + 1))))
    (hherm : ∀ a b, Spec b a = dagger (Spec a b))
    (i j : ℕ) (hi : i ≤ nbm1) (hj : j ≤ nbm1) :
    rightS tX tY nbm1 (e0 + 1) false true (e0 + 1)
      (rightS tX tY nbm1 e0 true false (e0 + 1)
        (belowS tX nbm1 (e0 + 1) (e0 + 1)
          (belowS tX nbm1 (e0 + 1) e0
            (aboveS tY e0 (e0 + 1)
              (aboveS tY e0 e0
                (leftS tX tY nbm1 e0 true false e0
                  (leftS tX tY nbm1 (e0 + 1) false true e0
                    (updS (updS (updS (updS (fun _ _ => none) e0 e0 (Spec e0 e0))
                        e0 (e0 + 1) (Spec e0 (e0 + 1)))
                        (e0 + 1) e0 (Spec (e0 + 1) e0))
                        (e0 + 1) (e0 + 1) (Spec (e0 + 1) (e0 + 1)))))))))) i j
      = some (Spec i j) := by
  rw [updS_spec4 Spec e0 e0 e0 (e0 + 1) (e0 + 1) e0 (e0 + 1) (e0 + 1)]
  rw [leftS_eq tX tY nbm1 Spec e0 (e0 + 1) hXv hYv hLv hherm e0 (e0 + 1) false true _
    le_rfl (by omega) (fun h => absurd h Bool.false_ne_true) (fun _ => rfl)
    (by
      try dsimp only
      try simp only [Bool.false_eq_true, eq_self_iff_true, true_and, and_true, true_or,
        or_true, false_and, and_false, false_or, or_false, if_false, if_true]
      all_goals first | rfl | (split_ifs <;> first | rfl | (exfalso; omega)))]
  rw [leftS_eq tX tY nbm1 Spec e0 (e0 + 1) hXv hYv hLv hherm e0 e0 true false _
    le_rfl (by omega) (fun _ => rfl) (fun h => absurd h Bool.false_ne_true)
    (by
      try dsimp only
      try simp only [Bool.false_eq_true, eq_self_iff_true, true_and, and_true, true_or,
        or_true, false_and, and_false, false_or, or_false, if_false, if_true]
      all_goals first | rfl | (split_ifs <;> first | rfl | (exfalso; omega)))]
  rw [aboveS_eq tY Spec e0 hYv hherm e0 e0 _ le_rfl
    (fun c h1 h2 => by
      try dsimp only
      try simp only [Bool.false_eq_true, eq_self_iff_true, true_and, and_true, true_or,
        or_true, false_and, and_false, false_or, or_false, if_false, if_true]
      all_goals first | rfl | (split_ifs <;> first | rfl | (exfalso; omega)))
    (fun h => absurd h (lt_irrefl e0))]
  rw [aboveS_eq tY Spec e0 hYv hherm e0 (e0 + 1) _ le_rfl
    (fun c h1 h2 => by
      try dsimp only
      try simp only [Bool.false_eq_true, eq_self_iff_true, true_and, and_true, true_or,
        or_true, false_and, and_false, false_or, or_false, if_false, if_true]
      all_goals first | rfl | (split_ifs <;> first | rfl | (exfalso; omega)))
    (fun h => absurd h (by omega))]
  rw [belowS_eq tX nbm1 Spec (e0 + 1) hXv hherm (nbm1 - (e0 + 1)) (e0 + 1) e0 _ rfl le_rfl
    (fun c h1 h2 => absurd (h1.trans h2) (by omega))
    (fun _ => by
      try dsimp only
      try simp only [Bool.false_eq_true, eq_self_iff_true, true_and, and_true, true_or,
        or_true, false_and, and_false, false_or, or_false, if_false, if_true]
      all_goals first | rfl | (split_ifs <;> first | rfl | (exfalso; omega)))]
  rw [belowS_eq tX nbm1 Spec (e0 + 1) hXv hherm (nbm1 - (e0 + 1)) (e0 + 1) (e0 + 1) _ rfl
    le_rfl
    (fun c h1 h2 => absurd (h1.trans h2) (by omega))
    (fun _ => by
      try dsimp only
      try simp only [Bool.false_eq_true, eq_self_iff_true, true_and, and_true, true_or,
        or_true, false_and, and_false, false_or, or_false, if_false, if_true]
      all_goals first | rfl | (split_ifs <;> first | rfl | (exfalso; omega)))]
  rw [rightS_eq tX tY nbm1 Spec e0 (e0 + 1) hXv hYv hherm (nbm1 - (e0 + 1)) (e0 + 1) e0
    true false _ rfl (by omega) (fun _ => rfl) (fun h => absurd h Bool.false_ne_true)
    (fun c h1 h2 => by
      try dsimp only
      try simp only [Bool.false_eq_true, eq_self_iff_true, true_and, and_true, true_or,
        or_true, false_and, and_false, false_or, or_false, if_false, if_true]
      all_goals first | rfl | (split_ifs <;> first | rfl | (exfalso; omega)))
    (fun _ c x h1 h2 h3 => by
      try dsimp only
      try simp only [Bool.false_eq_true, eq_self_iff_true, true_and, and_true, true_or,
        or_true, false_and, and_false, false_or, or_false, if_false, if_true]
      all_goals first | rfl | (split_ifs <;> first | rfl | (exfalso; omega)))
    (fun h => absurd h Bool.false_ne_true)]
  rw [rightS_eq tX tY nbm1 Spec e0 (e0 + 1) hXv hYv hherm (nbm1 - (e0 + 1)) (e0 + 1)
    (e0 + 1) false true _ rfl le_rfl (fun h => absurd h Bool.false_ne_true) (fun _ => rfl)
    (fun c h1 h2 => by
      try dsimp only
      try simp only [Bool.false_eq_true, eq_self_iff_true, true_and, and_true, true_or,
        or_true, false_and, and_false, false_or, or_false, if_false, if_true]
      all_goals first | rfl | (split_ifs <;> first | rfl | (exfalso; omega)))
    (fun h => absurd h Bool.false_ne_true)
    (fun _ c x h1 h2 h3 h4 => absurd (h3.trans_le h4) (by omega))]
  try dsimp only
  rcases Nat.lt_trichotomy j e0 with hj1 | hj1 | hj1
  · rw [if_neg (fun hc => absurd hc.1 (by omega)),
      if_neg (fun hc => absurd hc.1 (by omega)),
      if_neg (fun hc => absurd hc.1 (by omega)),
      if_neg (fun hc => absurd hc.1 (by omega)),
      if_neg (fun hc => absurd hc.1 (by omega)),
      if_neg (fun hc => absurd hc.1 (by omega))]
    rcases Nat.lt_or_ge i (e0 + 1) with hi1 | hi1
    · rcases Nat.eq_or_lt_of_le (Nat.lt_succ_iff.mp hi1) with hi2 | hi2
      · rw [if_pos ⟨hj1, Or.inl hi2⟩]
      · rw [if_pos ⟨hj1, Or.inr (Or.inr ⟨rfl, hi2⟩)⟩]
    · rw [if_neg (fun hc => by
        rcases hc.2 with h | hfalse | htrue
        · omega
        · exact absurd hfalse.1 Bool.false_ne_true
        · exact absurd htrue.2 (by omega))]
      rcases Nat.eq_or_lt_of_le hi1 with hi2 | hi2
      · rw [if_pos ⟨hj1, Or.inl hi2.symm⟩]
      · rw [if_pos ⟨hj1, Or.inr (Or.inl ⟨rfl, hi2, hi⟩)⟩]
  · rw [if_neg (fun hc => absurd hc.1 (by omega)),
      if_neg (fun hc => absurd hc.1 (by omega)),
      if_neg (fun hc => absurd hc.1 (by omega))]
    rcases Nat.lt_trichotomy i (e0 + 1) with hi1 | hi1 | hi1
    · rw [if_neg (fun hc => absurd hc.2.1 (by omega)),
        if_neg (fun hc => absurd hc.1 (by omega))]
      rcases Nat.eq_or_lt_of_le (Nat.lt_succ_iff.mp hi1) with hi2 | hi2
      · rw [if_neg (fun hc => absurd hc.2 (by omega)),
          if_neg (fun hc => absurd hc.1 (by omega)),
          if_neg (fun hc => absurd hc.1 (by omega)),
          if_neg (fun hc => absurd hc.1 (by omega)),
          if_neg (fun hc => absurd hc.1 (by omega)),
          if_neg (fun hc => absurd hc.2 (by omega)),
          if_pos ⟨hi2, hj1⟩]
      · rw [if_pos ⟨hj1, hi2⟩]
    · rw [if_neg (fun hc => absurd hc.2.1 (by omega)),
        if_neg (fun hc => absurd hc.1 (by omega)),
        if_neg (fun hc => absurd hc.2 (by omega)),
        if_neg (fun hc => absurd hc.1 (by omega)),
        if_neg (fun hc => absurd hc.1 (by omega)),
        if_neg (fun hc => absurd hc.2 (by omega)),
        if_pos ⟨hi1, hj1⟩]
    · rw [if_pos ⟨hj1, hi1, hi⟩]
  · rcases Nat.eq_or_lt_of_le hj1 with hj2 | hj2
    · rw [if_neg (fun hc => absurd hc.1 (by omega)),
        if_neg (fun hc => absurd hc.1 (by omega))]
      rcases Nat.lt_trichotomy i (e0 + 1) with hi1 | hi1 | hi1
      · rw [if_neg (fun hc => absurd hc.2.1 (by omega)),
          if_neg (fun hc => absurd hc.1 (by omega))]
        rcases Nat.eq_or_lt_of_le (Nat.lt_succ_iff.mp hi1) with hi2 | hi2
        · rw [if_neg (fun hc => absurd hc.2 (by omega)),
            if_neg (fun hc => absurd hc.1 (by omega)),
            if_neg (fun hc => absurd hc.1 (by omega)),
            if_neg (fun hc => absurd hc.1 (by omega)),
            if_neg (fun hc => absurd hc.1 (by omega)),
            if_neg (fun hc => absurd hc.1 (by omega)),
            if_pos ⟨hi2, hj2.symm⟩]
        · rw [if_pos ⟨hj2.symm, hi2⟩]
      · rw [if_neg (fun hc => absurd hc.2.1 (by omega)),
          if_neg (fun hc => absurd hc.1 (by omega)),
          if_neg (fun hc => absurd hc.2 (by omega)),
          if_neg (fun hc => absurd hc.1 (by omega)),
          if_neg (fun hc => absurd hc.1 (by omega)),
          if_neg (fun hc => absurd hc.1 (by omega)),
          if_pos ⟨hi1, hj2.symm⟩]
      · rw [if_pos ⟨hj2.symm, hi1, hi⟩]
    · rcases Nat.lt_trichotomy i (e0 + 1) with hi1 | hi1 | hi1
      · rw [if_neg (fun hc => by
          rcases hc.2.2 with h | hfalse | htrue
          · omega
          · exact absurd hfalse.1 Bool.false_ne_true
          · exact absurd htrue.2.1 (by omega))]
        rcases Nat.eq_or_lt_of_le (Nat.lt_succ_iff.mp hi1) with hi2 | hi2
        · rw [if_pos ⟨hj2, hj, Or.inl hi2⟩]
        · rw [if_pos ⟨hj2, hj, Or.inr (Or.inl ⟨rfl, hi2⟩)⟩]
      · rw [if_pos ⟨hj2, hj, Or.inl hi1⟩]
      · rw [if_pos ⟨hj2, hj, Or.inr (Or.inr ⟨rfl, hi1, hi⟩)⟩]

/-- **C2**: for every electrode — its device orbitals lying in one block
`eb`, or spanning the two consecutive blocks `e0, e0+1`, the only layouts
`_green_column`/`_green_diag_block` accept — with Hermitian broadening
`Γₑ`, the in-place `_spectral_propagate` traversal (herm variant) writes
every block `(i, j)` of the dense spectral matrix, and writes it with
exactly the block `G_i·Γₑ·G_jᴴ` that the `_spectral_column` path computes
there: in exact arithmetic `method='column'` and `method='propagate'`
agree. -/
theorem spectral_propagate_eq_column (A B C tX tY : ℕ → Tile K m) :
    (∀ (q : ℕ) (g : Fin q → Fin m) (Gam : Matrix (Fin q) (Fin q) K) (nbm1 eb i j : ℕ),
      Gam.conjTranspose = Gam → eb ≤ nbm1 → i ≤ nbm1 → j ≤ nbm1 →
      spectral_propagate A B C tX tY g Gam nbm1 eb i j
        = some (spectral_column A B C tX tY g Gam nbm1 eb i j))
    ∧ (∀ (q0 q1 : ℕ) (g0 : Fin q0 → Fin m) (g1 : Fin q1 → Fin m)
        (Gam : Matrix (Fin q0 ⊕ Fin q1) (Fin q0 ⊕ Fin q1) K) (nbm1 e0 i j : ℕ),
      Gam.conjTranspose = Gam → e0 + 1 ≤ nbm1 → i ≤ nbm1 → j ≤ nbm1 →
      spectral_propagate2 A B C tX tY g0 g1 Gam nbm1 e0 i j
        = some (spectral_column2 A B C tX tY g0 g1 Gam nbm1 e0 i j)) := by
  constructor
  · intro q g Gam nbm1 eb i j hG _heb hi hj
    unfold spectral_propagate
    rw [show greenDiagBlock1 A B C tX tY nbm1 eb g * Gam
          * (greenDiagBlock1 A B C tX tY nbm1 eb g).conjTranspose
        = spectral_column A B C tX tY g Gam nbm1 eb eb eb from by
      unfold spectral_column green_column
      rw [if_neg (lt_irrefl eb), Nat.sub_self, dnProp]]
    exact spectral_assembly1 tX tY (spectral_column A B C tX tY g Gam nbm1 eb) nbm1 eb
      (fun a b ha => spectral_column_below A B C tX tY g Gam nbm1 eb a b ha)
      (fun a b ha => spectral_column_above A B C tX tY g Gam nbm1 eb a b ha)
      (fun a c hc => spectral_column_left A B C tX tY g Gam nbm1 eb a c hc)
      (fun a b => spectral_column_herm A B C tX tY g Gam nbm1 eb hG a b)
      i j hi hj
  · intro q0 q1 g0 g1 Gam nbm1 e0 i j hG _he0 hi hj
    unfold spectral_propagate2
    rw [show greenDiagBlock2fst A B C tX tY nbm1 e0 g0 g1 * Gam
          * (greenDiagBlock2fst A B C tX tY nbm1 e0 g0 g1).conjTranspose
        = spectral_column2 A B C tX tY g0 g1 Gam nbm1 e0 e0 e0 from by
      unfold spectral_column2 green_column2
      rw [if_neg (lt_irrefl e0), if_pos rfl]]
    rw [show greenDiagBlock2fst A B C tX tY nbm1 e0 g0 g1 * Gam
          * (greenDiagBlock2snd A B C tX tY nbm1 e0 g0 g1).conjTranspose
        = spectral_column2 A B C tX tY g0 g1 Gam nbm1 e0 e0 (e0 + 1) from by
      unfold spectral_column2 green_column2
      rw [if_neg (lt_irrefl e0), if_pos rfl, if_neg (by omega), if_neg (by omega),
        Nat.sub_self, dnProp]]
    rw [show greenDiagBlock2snd A B C tX tY nbm1 e0 g0 g1 * Gam
          * (greenDiagBlock2fst A B C tX tY nbm1 e0 g0 g1).conjTranspose
        = spectral_column2 A B C tX tY g0 g1 Gam nbm1 e0 (e0 + 1) e0 from by
      unfold spectral_column2 green_column2
      rw [if_neg (by omega), if_neg (by omega), Nat.sub_self, dnProp,
        if_neg (lt_irrefl e0), if_pos rfl]]
    rw [show greenDiagBlock2snd A B C tX tY nbm1 e0 g0 g1 * Gam
          * (greenDiagBlock2snd A B C tX tY nbm1 e0 g0 g1).conjTranspose
        = spectral_column2 A B C tX tY g0 g1 Gam nbm1 e0 (e0 + 1) (e0 + 1) from by
      unfold spectral_column2 green_column2
      rw [if_neg (by omega), if_neg (by omega), Nat.sub_self, dnProp]]
    exact spectral_assembly2 tX tY (spectral_column2 A B C tX tY g0 g1 Gam nbm1 e0) nbm1 e0
      (fun a b ha => spectral_column2_below A B C tX tY g0 g1 Gam nbm1 e0 a b ha)
      (fun a b ha => spectral_column2_above A B C tX tY g0 g1 Gam nbm1 e0 a b ha)
      (fun a c hc => spectral_column2_left A B C tX tY g0 g1 Gam nbm1 e0 a c hc)
      (fun a b => spectral_column2_herm A B C tX tY g0 g1 Gam nbm1 e0 hG a b)
      i j hi hj

/-- Witness for `spectral_propagate_eq_column`: a single-block electrode
in the middle block of a 3-block device, and a two-block electrode
spanning the first two blocks. -/
theorem spectral_propagate_eq_column_witness :
    (Matrix.conjTranspose exGam = exGam ∧ (1 : ℕ) ≤ 2 ∧ (0 : ℕ) ≤ 2 ∧ (2 : ℕ) ≤ 2 ∧
      spectral_propagate oneTiles oneTiles oneTiles oneTiles oneTiles exSel exGam 2 1 0 2
        = some (spectral_column oneTiles oneTiles oneTiles oneTiles oneTiles
            exSel exGam 2 1 0 2)) ∧
    (Matrix.conjTranspose exGam2 = exGam2 ∧ (0 : ℕ) + 1 ≤ 2 ∧ (2 : ℕ) ≤ 2 ∧ (0 : ℕ) ≤ 2 ∧
      spectral_propagate2 oneTiles oneTiles oneTiles oneTiles oneTiles exSel exSel
          exGam2 2 0 2 0
        = some (spectral_column2 oneTiles oneTiles oneTiles oneTiles oneTiles exSel exSel
            exGam2 2 0 2 0)) := by
  have h1 : Matrix.conjTranspose exGam = exGam := by
    funext a b
    rfl
  have h2 : Matrix.conjTranspose exGam2 = exGam2 := by
    unfold exGam2
    exact Matrix.conjTranspose_one
  exact ⟨⟨h1, by omega, by omega, by omega,
      (spectral_propagate_eq_column oneTiles oneTiles oneTiles oneTiles oneTiles).1
        1 exSel exGam 2 1 0 2 h1 (by omega) (by omega) (by omega)⟩,
    ⟨h2, by omega, by omega, by omega,
      (spectral_propagate_eq_column oneTiles oneTiles oneTiles oneTiles oneTiles).2
        1 1 exSel exSel exGam2 2 0 2 0 h2 (by omega) (by omega) (by omega)⟩⟩

end SislBTD
